import Mathlib

/-! Verification of the flowtask dependency-graph engine and task store.

The definitions below are a shallow embedding of the Python modules
flowtask/graph.py and flowtask/db.py.  Python dicts keyed by node are
modelled as association lists or as explicitly updated functions, Python
sets as duplicate-free lists, and Python ints as Lean Int.  Iteration
order of Python sets and dicts over ints is unspecified by the language,
so the embedding fixes one concrete order; the theorems proved below are
insensitive to that choice.  Loops whose termination is not structural
carry explicit fuel together with a proof that the chosen fuel bound is
large enough. -/

namespace Flowtask

/-- Task identifier, `int` in Python. -/
abbrev Node := Int

/-- A dependency edge `(task_id, depends_on_id)` (graph.py `Edge`). -/
abbrev Edge := Node × Node

/-- Adjacency mapping, modelling `Dict[int, Set[int]]`: an association
list from a node to the duplicate-free list of its direct prerequisites. -/
abbrev Adj := List (Node × List Node)

/-- Lookup modelling `adj.get(node, set())`. -/
def adjGet (adj : Adj) (n : Node) : List Node :=
  match adj.find? (fun kv => kv.1 == n) with
  | some kv => kv.2
  | none => []

/-- Key-membership test, modelling `node in adj`. -/
def adjHasKey (adj : Adj) (n : Node) : Bool :=
  (adj.find? (fun kv => kv.1 == n)).isSome

/-- Insert `p` into the value set bound to `t`, creating the key as
Python `defaultdict(set)` does; models `adj[task_id].add(prereq_id)`. -/
def adjAdd : Adj → Node → Node → Adj
  | [], t, p => [(t, [p])]
  | kv :: rest, t, p =>
      if kv.1 = t then (kv.1, if p ∈ kv.2 then kv.2 else kv.2 ++ [p]) :: rest
      else kv :: adjAdd rest t p

/-- Ensure key `p` exists with an (initially empty) value set, modelling
the `if prereq_id not in adj: adj[prereq_id] = adj[prereq_id]` line. -/
def adjTouch (adj : Adj) (p : Node) : Adj :=
  if adjHasKey adj p then adj else adj ++ [(p, [])]

/-- graph.py `build_adjacency`. -/
def build_adjacency (edges : List Edge) : Adj :=
  edges.foldl (fun adj e => adjTouch (adjAdd adj e.1 e.2) e.2) []

/-- Weight of one adjacency entry, used to bound the DFS work. -/
def entryWeight (kv : Node × List Node) : Nat := 1 + kv.2.length

/-- Remaining DFS work: total weight of the entries not yet visited. -/
def visitWeight (adj : Adj) (visited : List Node) : Nat :=
  ((adj.filter (fun kv => !(decide (kv.1 ∈ visited)))).map entryWeight).sum

/-- Fuel that always suffices for the while-loop of `has_path`. -/
def adjFuel (adj : Adj) : Nat := 1 + (adj.map entryWeight).sum

/-- The while-loop of graph.py `has_path`, with explicit fuel.  The
Python stack pops from the right end; here the head of `stack` is the
top of the stack, so a freshly pushed block of neighbours is reversed
(Python set iteration order is unspecified anyway). -/
def hasPathLoop (adj : Adj) (target : Node) : Nat → List Node → List Node → Bool
  | 0, _, _ => false
  | _ + 1, [], _ => false
  | fuel + 1, node :: stack, visited =>
      if node ∈ visited then hasPathLoop adj target fuel stack visited
      else
        let nbrs := adjGet adj node
        if target ∈ nbrs then true
        else
          hasPathLoop adj target fuel
            ((nbrs.filter (fun m => !(decide (m ∈ node :: visited)))).reverse ++ stack)
            (node :: visited)

/-- graph.py `has_path`. -/
def has_path (adj : Adj) (start target : Node) : Bool :=
  if start = target then true
  else hasPathLoop adj target (adjFuel adj) [start] []

/-- graph.py `would_create_cycle`. -/
def would_create_cycle (edges : List Edge) (task_id prereq_id : Node) : Bool :=
  if task_id = prereq_id then true
  else has_path (build_adjacency edges) prereq_id task_id

/-- One step along the adjacency mapping: `b` is a direct prerequisite
of `a`. -/
def adjStep (adj : Adj) (a b : Node) : Prop := b ∈ adjGet adj a

/-- One step along an edge list: `(a, b)` is an edge, i.e. `a` depends
directly on `b`. -/
def edgeStep (edges : List Edge) (a b : Node) : Prop := (a, b) ∈ edges

/-- Edge-processing loop of graph.py `topo_sort`: accumulates
`prereq_to_dependents` (modelled as a function to a duplicate-free list)
and `indegree`, skipping every edge with an endpoint outside the task
set. -/
def processEdges (tset : List Node) :
    List Edge → (Node → List Node) → (Node → Int) → ((Node → List Node) × (Node → Int))
  | [], dep, ind => (dep, ind)
  | e :: rest, dep, ind =>
      if e.1 ∈ tset ∧ e.2 ∈ tset then
        processEdges tset rest
          (fun m => if m = e.2 then (if e.1 ∈ dep e.2 then dep e.2 else dep e.2 ++ [e.1]) else dep m)
          (fun m => if m = e.1 then ind e.1 + 1 else ind m)
      else processEdges tset rest dep ind

/-- Inner for-loop of the Kahn while-loop: decrement the indegree of
every dependent of the popped node, enqueueing each one that reaches
zero. -/
def relax : (Node → Int) → List Node → List Node → ((Node → Int) × List Node)
  | ind, q, [] => (ind, q)
  | ind, q, d :: ds =>
      relax (fun m => if m = d then ind d - 1 else ind m)
        (if ind d - 1 = 0 then q ++ [d] else q) ds

/-- The Kahn while-loop of graph.py `topo_sort`, with explicit fuel; the
queue is FIFO (pop at the head, enqueue at the end). -/
def kahnLoop (dep : Node → List Node) : Nat → (Node → Int) → List Node → List Node → List Node
  | 0, _, _, out => out
  | _ + 1, _, [], out => out
  | fuel + 1, ind, n :: q, out =>
      let p := relax ind q (dep n)
      kahnLoop dep fuel p.1 p.2 (out ++ [n])

/-- graph.py `topo_sort`; `none` models the `ValueError` raised when the
produced sequence is shorter than the task set. -/
def topo_sort (tasks : List Node) (edges : List Edge) : Option (List Node) :=
  let tset := tasks.dedup
  let dp := processEdges tset edges (fun _ => []) (fun _ => 0)
  let q0 := tset.filter (fun t => dp.2 t = 0)
  let out := kahnLoop dp.1 tset.length dp.2 q0 []
  if out.length = tset.length then some out else none

/-- The sublist of `E` of edges with both endpoints in `tset`. -/
def rfilter (tset : List Node) (E : List Edge) : List Edge :=
  E.filter (fun e => decide (e.1 ∈ tset) && decide (e.2 ∈ tset))

/-- The edges of `edges` both of whose endpoints lie in the task set;
exactly the edges that `topo_sort` does not skip. -/
def redges (tasks : List Node) (edges : List Edge) : List Edge :=
  rfilter tasks.dedup edges

/-- Dependency step inside the task set: `(a, b)` is a retained edge. -/
def depStep (tasks : List Node) (edges : List Edge) (a b : Node) : Prop :=
  (a, b) ∈ redges tasks edges

/-! Basic facts about the association-list operations. -/

theorem adjGet_cons (kv : Node × List Node) (rest : Adj) (k : Node) :
    adjGet (kv :: rest) k = if kv.1 = k then kv.2 else adjGet rest k := by
  by_cases h : kv.1 = k <;> simp [adjGet, List.find?_cons, h]

theorem adjHasKey_cons (kv : Node × List Node) (rest : Adj) (k : Node) :
    adjHasKey (kv :: rest) k = (decide (kv.1 = k) || adjHasKey rest k) := by
  by_cases h : kv.1 = k <;> simp [adjHasKey, List.find?_cons, h]

theorem adjGet_nil (k : Node) : adjGet [] k = [] := rfl

theorem adjGet_cases (adj : Adj) (n : Node) :
    (∃ kv, kv ∈ adj ∧ kv.1 = n ∧ adjGet adj n = kv.2) ∨
      ((∀ kv ∈ adj, kv.1 ≠ n) ∧ adjGet adj n = []) := by
  unfold adjGet
  cases h : adj.find? (fun kv => kv.1 == n) with
  | none =>
      refine Or.inr ⟨fun kv hkv => ?_, rfl⟩
      have := List.find?_eq_none.mp h kv hkv
      simpa using this
  | some kv =>
      exact Or.inl ⟨kv, List.mem_of_find?_eq_some h, by simpa using List.find?_some h, rfl⟩

/-! Termination of the DFS while-loop: the measure
`stack.length + visitWeight adj visited` strictly decreases. -/

theorem visitWeight_cons_entry (kv : Node × List Node) (rest : Adj) (v : List Node) :
    visitWeight (kv :: rest) v =
      (if kv.1 ∈ v then 0 else entryWeight kv) + visitWeight rest v := by
  by_cases h : kv.1 ∈ v <;> simp [visitWeight, List.filter_cons, h]

theorem visitWeight_cons_le (adj : Adj) (x : Node) (v : List Node) :
    visitWeight adj (x :: v) ≤ visitWeight adj v := by
  induction adj with
  | nil => simp [visitWeight]
  | cons kv rest ih =>
      rw [visitWeight_cons_entry, visitWeight_cons_entry]
      by_cases h1 : kv.1 ∈ v
      · have h2 : kv.1 ∈ x :: v := List.mem_cons_of_mem _ h1
        simpa [h1, h2] using ih
      · by_cases h2 : kv.1 ∈ x :: v
        · simp only [h1, h2, if_true, if_false]
          omega
        · simp only [h1, h2, if_true, if_false]
          omega

theorem visitWeight_remove (adj : Adj) (kv₀ : Node × List Node) (node : Node) (v : List Node)
    (hmem : kv₀ ∈ adj) (hkey : kv₀.1 = node) (hnv : node ∉ v) :
    entryWeight kv₀ + visitWeight adj (node :: v) ≤ visitWeight adj v := by
  induction adj with
  | nil => cases hmem
  | cons kv rest ih =>
      rw [visitWeight_cons_entry, visitWeight_cons_entry]
      rcases List.mem_cons.mp hmem with h | h
      · subst h
        have h2 : kv₀.1 ∈ node :: v := by simp [hkey]
        have h1 : ¬ kv₀.1 ∈ v := by simpa [hkey] using hnv
        have hle := visitWeight_cons_le rest node v
        simp only [h1, h2, if_true, if_false]
        omega
      · have hle := ih h
        by_cases h1 : kv.1 ∈ v
        · have h2 : kv.1 ∈ node :: v := List.mem_cons_of_mem _ h1
          simp only [h1, h2, if_true]
          omega
        · by_cases h2 : kv.1 ∈ node :: v
          · simp only [h1, h2, if_true, if_false]
            omega
          · simp only [h1, h2, if_false]
            omega

theorem visitWeight_nil_visited (adj : Adj) : visitWeight adj [] = (adj.map entryWeight).sum := by
  simp [visitWeight]

/-- The fuel-indexed DFS loop is stable once the fuel dominates the
measure `stack.length + visitWeight adj visited`. -/
theorem hasPathLoop_fuel_congr (adj : Adj) (target : Node) :
    ∀ fuel₁ fuel₂ stack visited,
      stack.length + visitWeight adj visited ≤ fuel₁ →
      stack.length + visitWeight adj visited ≤ fuel₂ →
      hasPathLoop adj target fuel₁ stack visited = hasPathLoop adj target fuel₂ stack visited := by
  intro fuel₁
  induction fuel₁ with
  | zero =>
      intro fuel₂ stack visited h₁ h₂
      have hs : stack = [] := by
        cases stack with
        | nil => rfl
        | cons a l => simp at h₁
      subst hs
      cases fuel₂ <;> rfl
  | succ f ih =>
      intro fuel₂ stack visited h₁ h₂
      cases stack with
      | nil => cases fuel₂ <;> rfl
      | cons node stack =>
          cases fuel₂ with
          | zero => simp at h₂
          | succ f₂ =>
              show hasPathLoop adj target (f + 1) (node :: stack) visited =
                hasPathLoop adj target (f₂ + 1) (node :: stack) visited
              by_cases hv : node ∈ visited
              · simp only [hasPathLoop, hv, if_true]
                refine ih f₂ stack visited ?_ ?_ <;> simp at h₁ h₂ <;> omega
              · simp only [hasPathLoop, hv, if_false]
                by_cases ht : target ∈ adjGet adj node
                · simp [ht]
                · simp only [ht, if_false]
                  have hpush :
                      (((adjGet adj node).filter
                        (fun m => !(decide (m ∈ node :: visited)))).reverse).length ≤
                        (adjGet adj node).length := by
                    rw [List.length_reverse]
                    exact List.length_filter_le _ _
                  have hmeas :
                      (((adjGet adj node).filter
                        (fun m => !(decide (m ∈ node :: visited)))).reverse ++ stack).length +
                        visitWeight adj (node :: visited) + 1 ≤
                        (node :: stack).length + visitWeight adj visited := by
                    rcases adjGet_cases adj node with ⟨kv, hkv, hk1, hget⟩ | ⟨hnone, hget⟩
                    · have hw := visitWeight_remove adj kv node visited hkv hk1 hv
                      have hewt : entryWeight kv = 1 + (adjGet adj node).length := by
                        rw [hget]; rfl
                      simp only [List.length_append, List.length_cons]
                      omega
                    · have hw := visitWeight_cons_le adj node visited
                      simp only [hget, List.filter_nil, List.reverse_nil, List.nil_append,
                        List.length_cons]
                      omega
                  refine ih f₂ _ _ ?_ ?_ <;> omega

/-! Partial correctness of the DFS: what `true` and `false` results mean. -/

theorem hasPathLoop_sound (adj : Adj) (target start : Node) :
    ∀ fuel stack visited,
      (∀ n ∈ stack, Relation.ReflTransGen (adjStep adj) start n) →
      hasPathLoop adj target fuel stack visited = true →
      Relation.ReflTransGen (adjStep adj) start target := by
  intro fuel
  induction fuel with
  | zero => intro stack visited _ h; simp [hasPathLoop] at h
  | succ f ih =>
      intro stack visited hstack h
      cases stack with
      | nil => simp [hasPathLoop] at h
      | cons node stack =>
          by_cases hv : node ∈ visited
          · simp only [hasPathLoop, hv, if_true] at h
            exact ih stack visited (fun n hn => hstack n (List.mem_cons_of_mem _ hn)) h
          · simp only [hasPathLoop, hv, if_false] at h
            by_cases ht : target ∈ adjGet adj node
            · exact Relation.ReflTransGen.tail (hstack node (List.mem_cons_self _ _)) ht
            · simp only [ht, if_false] at h
              refine ih _ _ ?_ h
              intro n hn
              rcases List.mem_append.mp hn with hn | hn
              · have hn2 : n ∈ adjGet adj node := by
                  have := List.mem_reverse.mp hn
                  exact (List.mem_filter.mp this).1
                exact Relation.ReflTransGen.tail (hstack node (List.mem_cons_self _ _)) hn2
              · exact hstack n (List.mem_cons_of_mem _ hn)

theorem closed_endgame (adj : Adj) (target : Node) (v : List Node)
    (htv : target ∉ v)
    (hnb : ∀ x ∈ v, target ∉ adjGet adj x)
    (hcl : ∀ x ∈ v, ∀ m ∈ adjGet adj x, m ∈ v) :
    ∀ n ∈ v, ∀ m, Relation.ReflTransGen (adjStep adj) n m → m ≠ target := by
  intro n hn m hreach
  have hm : m ∈ v := by
    induction hreach with
    | refl => exact hn
    | tail _ hstep ih => exact hcl _ ih _ hstep
  intro he
  exact htv (he ▸ hm)

theorem hasPathLoop_complete (adj : Adj) (target : Node) :
    ∀ fuel stack visited,
      stack.length + visitWeight adj visited ≤ fuel →
      target ∉ stack → target ∉ visited →
      (∀ x ∈ visited, target ∉ adjGet adj x) →
      (∀ x ∈ visited, ∀ m ∈ adjGet adj x, m ∈ visited ∨ m ∈ stack) →
      hasPathLoop adj target fuel stack visited = false →
      ∀ n, n ∈ stack ∨ n ∈ visited →
        ∀ m, Relation.ReflTransGen (adjStep adj) n m → m ≠ target := by
  intro fuel
  induction fuel with
  | zero =>
      intro stack visited hfuel hts htv hnb hcl _ n hn
      have hs : stack = [] := by
        cases stack with
        | nil => rfl
        | cons a l => simp at hfuel
      subst hs
      have hcl2 : ∀ x ∈ visited, ∀ m ∈ adjGet adj x, m ∈ visited := by
        intro x hx m hm
        rcases hcl x hx m hm with h | h
        · exact h
        · cases h
      rcases hn with hn | hn
      · cases hn
      · exact closed_endgame adj target visited htv hnb hcl2 n hn
  | succ f ih =>
      intro stack visited hfuel hts htv hnb hcl hrun n hn
      cases stack with
      | nil =>
          have hcl2 : ∀ x ∈ visited, ∀ m ∈ adjGet adj x, m ∈ visited := by
            intro x hx m hm
            rcases hcl x hx m hm with h | h
            · exact h
            · cases h
          rcases hn with hn | hn
          · cases hn
          · exact closed_endgame adj target visited htv hnb hcl2 n hn
      | cons node stack =>
          by_cases hv : node ∈ visited
          · simp only [hasPathLoop, hv, if_true] at hrun
            have hts2 : target ∉ stack := fun h => hts (List.mem_cons_of_mem _ h)
            have hcl2 : ∀ x ∈ visited, ∀ m ∈ adjGet adj x, m ∈ visited ∨ m ∈ stack := by
              intro x hx m hm
              rcases hcl x hx m hm with h | h
              · exact Or.inl h
              · rcases List.mem_cons.mp h with h | h
                · exact Or.inl (h ▸ hv)
                · exact Or.inr h
            have hfuel2 : stack.length + visitWeight adj visited ≤ f := by
              simp at hfuel; omega
            refine ih stack visited hfuel2 hts2 htv hnb hcl2 hrun n ?_
            rcases hn with hn | hn
            · rcases List.mem_cons.mp hn with h | h
              · exact Or.inr (h ▸ hv)
              · exact Or.inl h
            · exact Or.inr hn
          · simp only [hasPathLoop, hv, if_false] at hrun
            by_cases ht : target ∈ adjGet adj node
            · simp [ht] at hrun
            · simp only [ht, if_false] at hrun
              set pushes :=
                ((adjGet adj node).filter (fun m => !(decide (m ∈ node :: visited)))).reverse
                with hpushdef
              have hnodet : node ≠ target := by
                intro h; exact hts (h ▸ List.mem_cons_self _ _)
              have hts2 : target ∉ pushes ++ stack := by
                intro h
                rcases List.mem_append.mp h with h | h
                · have := (List.mem_filter.mp (List.mem_reverse.mp h)).1
                  exact ht this
                · exact hts (List.mem_cons_of_mem _ h)
              have htv2 : target ∉ node :: visited := by
                intro h
                rcases List.mem_cons.mp h with h | h
                · exact hnodet h.symm
                · exact htv h
              have hnb2 : ∀ x ∈ node :: visited, target ∉ adjGet adj x := by
                intro x hx
                rcases List.mem_cons.mp hx with h | h
                · exact h ▸ ht
                · exact hnb x h
              have hcl2 : ∀ x ∈ node :: visited, ∀ m ∈ adjGet adj x,
                  m ∈ node :: visited ∨ m ∈ pushes ++ stack := by
                intro x hx m hm
                rcases List.mem_cons.mp hx with h | h
                · subst h
                  by_cases hmv : m ∈ x :: visited
                  · exact Or.inl hmv
                  · refine Or.inr (List.mem_append.mpr (Or.inl ?_))
                    rw [hpushdef, List.mem_reverse, List.mem_filter]
                    exact ⟨hm, by simpa using hmv⟩
                · rcases hcl x h m hm with h2 | h2
                  · exact Or.inl (List.mem_cons_of_mem _ h2)
                  · rcases List.mem_cons.mp h2 with h3 | h3
                    · exact Or.inl (h3 ▸ List.mem_cons_self _ _)
                    · exact Or.inr (List.mem_append.mpr (Or.inr h3))
              have hfuel2 : (pushes ++ stack).length + visitWeight adj (node :: visited) ≤ f := by
                have hpush : pushes.length ≤ (adjGet adj node).length := by
                  rw [hpushdef, List.length_reverse]
                  exact List.length_filter_le _ _
                rcases adjGet_cases adj node with ⟨kv, hkv, hk1, hget⟩ | ⟨hnone, hget⟩
                · have hw := visitWeight_remove adj kv node visited hkv hk1 hv
                  have hewt : entryWeight kv = 1 + (adjGet adj node).length := by
                    rw [hget]; rfl
                  simp only [List.length_append, List.length_cons] at *
                  omega
                · have hw := visitWeight_cons_le adj node visited
                  have hp0 : pushes.length = 0 := by
                    rw [hpushdef, hget]; rfl
                  simp only [List.length_append, List.length_cons] at *
                  omega
              refine ih _ _ hfuel2 hts2 htv2 hnb2 hcl2 hrun n ?_
              rcases hn with hn | hn
              · rcases List.mem_cons.mp hn with h | h
                · exact Or.inr (h ▸ List.mem_cons_self _ _)
                · exact Or.inl (List.mem_append.mpr (Or.inr h))
              · exact Or.inr (List.mem_cons_of_mem _ hn)

/-- Full functional correctness of `has_path`: it decides reachability
by zero or more depends-on hops. -/
theorem has_path_iff_reach (adj : Adj) (s t : Node) :
    has_path adj s t = true ↔ Relation.ReflTransGen (adjStep adj) s t := by
  unfold has_path
  by_cases hst : s = t
  · subst hst
    simpa using Relation.ReflTransGen.refl
  · simp only [hst, if_false]
    constructor
    · intro h
      exact hasPathLoop_sound adj t s _ [s] []
        (by intro n hn; rcases List.mem_cons.mp hn with h2 | h2
            · exact h2 ▸ Relation.ReflTransGen.refl
            · cases h2) h
    · intro hreach
      by_contra hrun
      have hrun2 : hasPathLoop adj t (adjFuel adj) [s] [] = false := by
        cases h : hasPathLoop adj t (adjFuel adj) [s] []
        · rfl
        · exact absurd h hrun
      have hfuel : ([s] : List Node).length + visitWeight adj [] ≤ adjFuel adj := by
        rw [visitWeight_nil_visited]; simp [adjFuel]
      have := hasPathLoop_complete adj t (adjFuel adj) [s] [] hfuel
        (by simpa using fun h => hst h.symm) (by simp) (by simp) (by simp) hrun2 s
        (Or.inl (List.mem_cons_self _ _)) t hreach
      exact this rfl

/-! Characterisation of `build_adjacency`. -/

theorem adjGet_adjAdd (adj : Adj) (t p k : Node) :
    adjGet (adjAdd adj t p) k =
      if k = t then (if p ∈ adjGet adj t then adjGet adj t else adjGet adj t ++ [p])
      else adjGet adj k := by
  induction adj with
  | nil =>
      by_cases h : k = t
      · subst h
        simp [adjAdd, adjGet_cons, adjGet_nil]
      · have h2 : ¬ t = k := fun h2 => h h2.symm
        simp [adjAdd, adjGet_cons, adjGet_nil, h, h2]
  | cons kv rest ih =>
      by_cases h1 : kv.1 = t
      · by_cases h2 : k = t
        · subst h2
          simp [adjAdd, adjGet_cons, h1]
        · have h3 : ¬ t = k := fun h => h2 h.symm
          simp [adjAdd, adjGet_cons, h1, h2, h3]
      · by_cases h2 : kv.1 = k
        · have h3 : ¬ k = t := fun h => h1 (h2.trans h)
          simp [adjAdd, adjGet_cons, h1, h2, h3]
        · simp [adjAdd, adjGet_cons, h1, h2, ih]

theorem adjHasKey_adjAdd (adj : Adj) (t p k : Node) :
    adjHasKey (adjAdd adj t p) k = (adjHasKey adj k || decide (k = t)) := by
  induction adj with
  | nil =>
      by_cases h : k = t
      · subst h
        simp [adjAdd, adjHasKey_cons, adjHasKey]
      · have h2 : ¬ t = k := fun h2 => h h2.symm
        simp [adjAdd, adjHasKey_cons, adjHasKey, h, h2]
  | cons kv rest ih =>
      by_cases h1 : kv.1 = t
      · by_cases h2 : k = t
        · subst h2
          simp [adjAdd, adjHasKey_cons, h1]
        · simp [adjAdd, adjHasKey_cons, h1, h2]
      · simp [adjAdd, adjHasKey_cons, h1, ih]
        cases h3 : decide (kv.1 = k) <;> simp

theorem adjGet_append (l₁ l₂ : Adj) (k : Node) :
    adjGet (l₁ ++ l₂) k = if adjHasKey l₁ k then adjGet l₁ k else adjGet l₂ k := by
  induction l₁ with
  | nil => simp [adjHasKey, adjGet_nil]
  | cons kv rest ih =>
      rw [List.cons_append, adjGet_cons, adjGet_cons, adjHasKey_cons]
      by_cases h : kv.1 = k <;> simp [h, ih]

theorem adjGet_adjTouch (adj : Adj) (p k : Node) :
    adjGet (adjTouch adj p) k = adjGet adj k := by
  unfold adjTouch
  by_cases h : adjHasKey adj p
  · simp [h]
  · simp only [h, if_false, Bool.false_eq_true]
    rw [adjGet_append]
    by_cases h2 : adjHasKey adj k
    · simp [h2]
    · simp only [h2, if_false, Bool.false_eq_true]
      rw [adjGet_cons]
      rcases adjGet_cases adj k with ⟨kv, hkv, hk1, hget⟩ | ⟨_, hget⟩
      · exfalso
        have hbeq : (fun kv : Node × List Node => kv.1 == k) kv = true := by
          simpa using hk1
        exact h2 (List.find?_isSome.mpr ⟨kv, hkv, hbeq⟩)
      · by_cases h3 : p = k <;> simp [h3, hget, adjGet_nil]

theorem adjHasKey_adjTouch (adj : Adj) (p k : Node) :
    (adjHasKey (adjTouch adj p) k = true) ↔ (adjHasKey adj k = true ∨ k = p) := by
  unfold adjTouch
  by_cases h : adjHasKey adj p
  · simp only [h, if_true]
    constructor
    · exact Or.inl
    · rintro (h2 | h2)
      · exact h2
      · exact h2 ▸ h
  · simp only [h, if_false, Bool.false_eq_true]
    unfold adjHasKey at *
    rw [List.find?_append]
    cases h2 : adj.find? (fun kv => kv.1 == k) with
    | some kv => simp
    | none =>
        simp only [Option.none_or]
        by_cases h3 : k = p
        · subst h3
          simp [List.find?_cons]
        · have : ¬ p = k := fun h4 => h3 h4.symm
          simp [List.find?_cons, this, h3]

theorem build_adjacency_fold (E : List Edge) :
    ∀ adj : Adj,
      (∀ k p, p ∈ adjGet (E.foldl (fun a e => adjTouch (adjAdd a e.1 e.2) e.2) adj) k ↔
        p ∈ adjGet adj k ∨ (k, p) ∈ E) ∧
      (∀ n, adjHasKey (E.foldl (fun a e => adjTouch (adjAdd a e.1 e.2) e.2) adj) n = true ↔
        adjHasKey adj n = true ∨ ∃ e ∈ E, n = e.1 ∨ n = e.2) := by
  induction E with
  | nil => intro adj; simp
  | cons e E ih =>
      obtain ⟨t, q⟩ := e
      intro adj
      rcases ih (adjTouch (adjAdd adj t q) q) with ⟨ihget, ihkey⟩
      constructor
      · intro k p
        rw [List.foldl_cons, ihget k p, adjGet_adjTouch, adjGet_adjAdd]
        by_cases hk : k = t
        · rw [if_pos hk, hk]
          simp only [List.mem_cons, Prod.mk.injEq, true_and]
          by_cases hp : q ∈ adjGet adj t
          · rw [if_pos hp]
            constructor
            · rintro (h | h)
              · exact Or.inl h
              · exact Or.inr (Or.inr h)
            · rintro (h | h | h)
              · exact Or.inl h
              · exact Or.inl (h ▸ hp)
              · exact Or.inr h
          · rw [if_neg hp]
            simp only [List.mem_append, List.mem_singleton]
            constructor
            · rintro ((h | h) | h)
              · exact Or.inl h
              · exact Or.inr (Or.inl h)
              · exact Or.inr (Or.inr h)
            · rintro (h | h | h)
              · exact Or.inl (Or.inl h)
              · exact Or.inl (Or.inr h)
              · exact Or.inr h
        · rw [if_neg hk]
          simp only [List.mem_cons, Prod.mk.injEq]
          constructor
          · rintro (h | h)
            · exact Or.inl h
            · exact Or.inr (Or.inr h)
          · rintro (h | ⟨h1, h2⟩ | h)
            · exact Or.inl h
            · exact absurd h1 hk
            · exact Or.inr h
      · intro n
        rw [List.foldl_cons, ihkey n, adjHasKey_adjTouch, adjHasKey_adjAdd]
        constructor
        · rintro ((h | h) | h)
          · rcases Bool.or_eq_true_iff.mp h with h2 | h2
            · exact Or.inl h2
            · exact Or.inr ⟨(t, q), List.mem_cons_self _ _, Or.inl (by simpa using h2)⟩
          · exact Or.inr ⟨(t, q), List.mem_cons_self _ _, Or.inr h⟩
          · rcases h with ⟨e2, he2, h3⟩
            exact Or.inr ⟨e2, List.mem_cons_of_mem _ he2, h3⟩
        · rintro (h | ⟨e2, he2, h3⟩)
          · exact Or.inl (Or.inl (Bool.or_eq_true_iff.mpr (Or.inl h)))
          · rcases List.mem_cons.mp he2 with h4 | h4
            · subst h4
              rcases h3 with h3 | h3
              · exact Or.inl (Or.inl (Bool.or_eq_true_iff.mpr (Or.inr (by simpa using h3))))
              · exact Or.inl (Or.inr h3)
            · exact Or.inr ⟨e2, h4, h3⟩

theorem mem_adjGet_build (E : List Edge) (k p : Node) :
    p ∈ adjGet (build_adjacency E) k ↔ (k, p) ∈ E := by
  have h := (build_adjacency_fold E []).1 k p
  unfold build_adjacency
  rw [h]
  simp [adjGet_nil]

theorem adjHasKey_build (E : List Edge) (n : Node) :
    adjHasKey (build_adjacency E) n = true ↔ ∃ e ∈ E, n = e.1 ∨ n = e.2 := by
  have h := (build_adjacency_fold E []).2 n
  unfold build_adjacency
  rw [h]
  simp [adjHasKey]

/-- Reachability along the adjacency of an edge list agrees with
reachability along the edge list itself. -/
theorem reach_build_iff (E : List Edge) (a b : Node) :
    Relation.ReflTransGen (adjStep (build_adjacency E)) a b ↔
      Relation.ReflTransGen (edgeStep E) a b := by
  constructor
  · exact Relation.ReflTransGen.mono (fun x y h => (mem_adjGet_build E x y).mp h)
  · exact Relation.ReflTransGen.mono (fun x y h => (mem_adjGet_build E x y).mpr h)

theorem bool_eq_of_iff {a b : Bool} (h : a = true ↔ b = true) : a = b := by
  cases a <;> cases b <;> simp_all

/-- C5: `has_path adj start target` returns true iff there is a directed
path of zero or more hops from `start` to `target` following the
out-edges of `adj`, where the zero-hop path exists iff the endpoints are
equal; in particular `has_path adj a a` is true for every node `a`, even
one absent from the mapping. -/
theorem claim_C5_has_path_reachability (adj : Adj) (start target : Node) :
    (has_path adj start target = true ↔
      Relation.ReflTransGen (adjStep adj) start target) ∧
      has_path adj target target = true := by
  refine ⟨has_path_iff_reach adj start target, ?_⟩
  simp [has_path]

/-- C10: the DFS while-loop of `has_path` terminates on every finite
adjacency mapping — cyclic ones included — because the visited set lets
each node be expanded at most once: the fuel-indexed loop is stable at
every fuel of at least `adjFuel adj`, the bound `has_path` runs with. -/
theorem claim_C10_has_path_terminates (adj : Adj) (start target : Node) (fuel : Nat)
    (h : adjFuel adj ≤ fuel) :
    hasPathLoop adj target fuel [start] [] =
      hasPathLoop adj target (adjFuel adj) [start] [] := by
  have hμ : ([start] : List Node).length + visitWeight adj [] = adjFuel adj := by
    rw [visitWeight_nil_visited]
    simp [adjFuel]
  refine hasPathLoop_fuel_congr adj target fuel (adjFuel adj) [start] [] ?_ ?_ <;> omega

/-- Witness for C10 at a concrete cyclic adjacency mapping. -/
theorem claim_C10_witness :
    adjFuel [((1 : Int), [(2 : Int)]), (2, [1])] ≤ 10 ∧
      hasPathLoop [((1 : Int), [(2 : Int)]), (2, [1])] 3 10 [1] [] =
        hasPathLoop [((1 : Int), [(2 : Int)]), (2, [1])] 3
          (adjFuel [((1 : Int), [(2 : Int)]), (2, [1])]) [1] [] :=
  ⟨by decide, claim_C10_has_path_terminates _ 1 3 10 (by decide)⟩

/-- C1: `would_create_cycle E task prereq` is true iff `task = prereq`
(regardless of `E`), or there is a directed path of one or more
depends-on hops from `prereq` to `task` in the graph built from `E`
alone (before the proposed edge is added); false otherwise. -/
theorem claim_C1_would_create_cycle (E : List Edge) (task_id prereq_id : Node) :
    would_create_cycle E task_id prereq_id = true ↔
      (task_id = prereq_id ∨ Relation.TransGen (edgeStep E) prereq_id task_id) := by
  unfold would_create_cycle
  by_cases h : task_id = prereq_id
  · simp [h]
  · simp only [h, if_false, false_or]
    rw [has_path_iff_reach, reach_build_iff]
    constructor
    · intro h2
      rcases Relation.ReflTransGen.cases_head h2 with h3 | ⟨c, hc, hcr⟩
      · exact absurd h3.symm h
      · exact Relation.TransGen.head' hc hcr
    · exact Relation.TransGen.to_reflTransGen

/-- C6: `build_adjacency E` has as keys exactly the nodes appearing as
an endpoint of some edge of `E`; each key `k` maps to exactly the set of
nodes `p` with `(k, p) ∈ E`; a node appearing only as a prerequisite is
a key mapped to the empty set; and the mapping depends only on the set
of edges, not on their order or multiplicity. -/
theorem claim_C6_build_adjacency (E F : List Edge) (hEF : ∀ e, e ∈ E ↔ e ∈ F) :
    (∀ n, adjHasKey (build_adjacency E) n = true ↔ ∃ e ∈ E, n = e.1 ∨ n = e.2) ∧
    (∀ k p, p ∈ adjGet (build_adjacency E) k ↔ (k, p) ∈ E) ∧
    (∀ n, (∀ e ∈ E, n ≠ e.1) → (∃ e ∈ E, n = e.2) →
      adjHasKey (build_adjacency E) n = true ∧ adjGet (build_adjacency E) n = []) ∧
    (∀ n, adjHasKey (build_adjacency E) n = adjHasKey (build_adjacency F) n) ∧
    (∀ k p, p ∈ adjGet (build_adjacency E) k ↔ p ∈ adjGet (build_adjacency F) k) := by
  refine ⟨adjHasKey_build E, mem_adjGet_build E, ?_, ?_, ?_⟩
  · intro n hn1 hn2
    refine ⟨(adjHasKey_build E n).mpr ?_, ?_⟩
    · rcases hn2 with ⟨e, he, h2⟩
      exact ⟨e, he, Or.inr h2⟩
    · rw [List.eq_nil_iff_forall_not_mem]
      intro p hp
      have := (mem_adjGet_build E n p).mp hp
      exact hn1 (n, p) this rfl
  · intro n
    refine bool_eq_of_iff ?_
    rw [adjHasKey_build, adjHasKey_build]
    constructor
    · rintro ⟨e, he, h2⟩
      exact ⟨e, (hEF e).mp he, h2⟩
    · rintro ⟨e, he, h2⟩
      exact ⟨e, (hEF e).mpr he, h2⟩
  · intro k p
    rw [mem_adjGet_build, mem_adjGet_build]
    exact hEF (k, p)

/-- Witness for C6 at two concrete edge lists differing in order and
multiplicity but equal as sets. -/
theorem claim_C6_witness :
    (∀ e : Edge, e ∈ [((1 : Int), (2 : Int)), (2, 3)] ↔ e ∈ [((2 : Int), (3 : Int)), (1, 2), (1, 2)]) ∧
    ((∀ n, adjHasKey (build_adjacency [((1 : Int), (2 : Int)), (2, 3)]) n = true ↔
        ∃ e ∈ [((1 : Int), (2 : Int)), (2, 3)], n = e.1 ∨ n = e.2) ∧
      (∀ k p, p ∈ adjGet (build_adjacency [((1 : Int), (2 : Int)), (2, 3)]) k ↔
        (k, p) ∈ [((1 : Int), (2 : Int)), (2, 3)]) ∧
      (∀ n, (∀ e ∈ [((1 : Int), (2 : Int)), (2, 3)], n ≠ e.1) →
        (∃ e ∈ [((1 : Int), (2 : Int)), (2, 3)], n = e.2) →
        adjHasKey (build_adjacency [((1 : Int), (2 : Int)), (2, 3)]) n = true ∧
          adjGet (build_adjacency [((1 : Int), (2 : Int)), (2, 3)]) n = []) ∧
      (∀ n, adjHasKey (build_adjacency [((1 : Int), (2 : Int)), (2, 3)]) n =
        adjHasKey (build_adjacency [((2 : Int), (3 : Int)), (1, 2), (1, 2)]) n) ∧
      (∀ k p, p ∈ adjGet (build_adjacency [((1 : Int), (2 : Int)), (2, 3)]) k ↔
        p ∈ adjGet (build_adjacency [((2 : Int), (3 : Int)), (1, 2), (1, 2)]) k)) := by
  have h : ∀ e : Edge, e ∈ [((1 : Int), (2 : Int)), (2, 3)] ↔
      e ∈ [((2 : Int), (3 : Int)), (1, 2), (1, 2)] := by
    intro e
    simp only [List.mem_cons, List.not_mem_nil, or_false]
    tauto
  exact ⟨h, claim_C6_build_adjacency _ _ h⟩

/-! Kahn topological sort: counting unmet prerequisites. -/

theorem countP_split {α : Type} (l : List α) (p q : α → Bool) :
    l.countP p = l.countP (fun a => p a && q a) + l.countP (fun a => p a && !(q a)) := by
  induction l with
  | nil => simp
  | cons a l ih =>
      simp only [List.countP_cons]
      cases hp : p a <;> cases hq : q a <;> simp [hp, hq] <;> omega

/-- Number of edges of `rE` whose dependent is `t` and whose prerequisite
is not yet in `out`, counted with multiplicity: the quantity `indegree[t]`
tracks during the Kahn loop. -/
def unmet (rE : List Edge) (out : List Node) (t : Node) : Nat :=
  rE.countP (fun e => decide (e.1 = t) && !(decide (e.2 ∈ out)))

theorem unmet_zero_iff (rE : List Edge) (out : List Node) (t : Node) :
    unmet rE out t = 0 ↔ ∀ e ∈ rE, e.1 = t → e.2 ∈ out := by
  unfold unmet
  rw [List.countP_eq_length_filter, List.length_eq_zero, List.filter_eq_nil_iff]
  constructor
  · intro h e he h1
    by_contra h2
    exact (h e he) (by simp [h1, h2])
  · intro h e he
    by_cases h1 : e.1 = t
    · simp [h1, h e he h1]
    · simp [h1]

theorem unmet_pos (rE : List Edge) (out : List Node) (t : Node) (h : unmet rE out t ≠ 0) :
    ∃ e ∈ rE, e.1 = t ∧ e.2 ∉ out := by
  unfold unmet at h
  rw [List.countP_eq_length_filter] at h
  rcases List.exists_mem_of_length_pos (Nat.pos_of_ne_zero h) with ⟨e, he⟩
  rcases List.mem_filter.mp he with ⟨he1, he2⟩
  simp at he2
  exact ⟨e, he1, he2.1, he2.2⟩

theorem countP_eq_mem_nodup {α : Type} [DecidableEq α] (l : List α) (hl : l.Nodup) (a : α) :
    l.countP (fun x => decide (x = a)) = if a ∈ l then 1 else 0 := by
  induction l with
  | nil => simp
  | cons b l ih =>
      rcases List.nodup_cons.mp hl with ⟨hb, hl2⟩
      rw [List.countP_cons]
      by_cases hba : b = a
      · subst hba
        simp [hb, ih hl2]
      · have hab : ¬ a = b := fun h => hba h.symm
        simp [hba, hab, ih hl2, List.mem_cons]

theorem unmet_step (rE : List Edge) (hnd : rE.Nodup) (out : List Node) (n : Node)
    (hn : n ∉ out) (t : Node) :
    unmet rE out t = unmet rE (out ++ [n]) t + (if (t, n) ∈ rE then 1 else 0) := by
  unfold unmet
  rw [countP_split rE _ (fun e => decide (e.2 = n))]
  have h1 : rE.countP
      (fun e => (decide (e.1 = t) && !(decide (e.2 ∈ out))) && decide (e.2 = n)) =
      (if (t, n) ∈ rE then 1 else 0) := by
    have hc : rE.countP
        (fun e => (decide (e.1 = t) && !(decide (e.2 ∈ out))) && decide (e.2 = n)) =
        rE.countP (fun e => decide (e = (t, n))) := by
      rw [List.countP_eq_length_filter, List.countP_eq_length_filter,
        List.filter_congr ?_]
      intro e he
      by_cases h2 : e = (t, n)
      · subst h2
        simp [hn]
      · have h3 : ¬ (e.1 = t ∧ e.2 = n) := by
          intro ⟨ha, hb⟩
          exact h2 (Prod.ext ha hb)
        cases hh : decide (e.1 = t) <;> cases hh2 : decide (e.2 = n) <;>
          simp_all
    rw [hc, countP_eq_mem_nodup rE hnd (t, n)]
    by_cases hm : (t, n) ∈ rE <;> simp [hm]
  have h2 : rE.countP
      (fun e => (decide (e.1 = t) && !(decide (e.2 ∈ out))) && !(decide (e.2 = n))) =
      rE.countP (fun e => decide (e.1 = t) && !(decide (e.2 ∈ out ++ [n]))) := by
    rw [List.countP_eq_length_filter, List.countP_eq_length_filter, List.filter_congr ?_]
    intro e he
    by_cases ha : e.1 = t <;> by_cases hb : e.2 ∈ out <;> by_cases hc : e.2 = n <;>
      simp [ha, hb, hc, List.mem_append]
  omega

/-- Closed form of the inner `relax` loop when the processed dependents
list has no duplicates. -/
theorem relax_spec :
    ∀ (ds : List Node) (ind : Node → Int) (q : List Node), ds.Nodup →
      (relax ind q ds).1 = (fun m => if m ∈ ds then ind m - 1 else ind m) ∧
      (relax ind q ds).2 = q ++ ds.filter (fun d => decide (ind d - 1 = 0)) := by
  intro ds
  induction ds with
  | nil =>
      intro ind q h
      constructor
      · funext m
        simp [relax]
      · simp [relax]
  | cons d ds ih =>
      intro ind q hnd
      have hd : d ∉ ds := (List.nodup_cons.mp hnd).1
      have hds : ds.Nodup := (List.nodup_cons.mp hnd).2
      rcases ih (fun m => if m = d then ind d - 1 else ind m)
        (if ind d - 1 = 0 then q ++ [d] else q) hds with ⟨h1, h2⟩
      constructor
      · show (relax (fun m => if m = d then ind d - 1 else ind m)
          (if ind d - 1 = 0 then q ++ [d] else q) ds).1 = _
        rw [h1]
        funext m
        by_cases hm : m ∈ ds
        · have hmd : m ≠ d := fun h => hd (h ▸ hm)
          simp [hm, hmd, List.mem_cons]
        · by_cases hmd : m = d
          · subst hmd
            simp [hm]
          · simp [hm, hmd, List.mem_cons]
      · show (relax (fun m => if m = d then ind d - 1 else ind m)
          (if ind d - 1 = 0 then q ++ [d] else q) ds).2 = _
        rw [h2]
        have hfc : ds.filter (fun x => decide ((if x = d then ind d - 1 else ind x) - 1 = 0)) =
            ds.filter (fun x => decide (ind x - 1 = 0)) := by
          refine List.filter_congr ?_
          intro x hx
          have hxd : ¬ x = d := fun h => hd (h ▸ hx)
          simp [hxd]
        rw [hfc]
        by_cases hz : ind d - 1 = 0
        · simp [List.filter_cons, hz, List.append_assoc]
        · simp [List.filter_cons, hz]

/-- Closed form of `processEdges`: membership in the dependents map. -/
theorem processEdges_dep_mem (tset : List Node) :
    ∀ (E : List Edge) (dep : Node → List Node) (ind : Node → Int) (m t : Node),
      t ∈ (processEdges tset E dep ind).1 m ↔ t ∈ dep m ∨ (t, m) ∈ rfilter tset E := by
  intro E
  induction E with
  | nil => intro dep ind m t; simp [processEdges, rfilter]
  | cons e E ih =>
      intro dep ind m t
      obtain ⟨a, b⟩ := e
      by_cases hab : a ∈ tset ∧ b ∈ tset
      · rw [show processEdges tset ((a, b) :: E) dep ind = processEdges tset E
            (fun m => if m = b then (if a ∈ dep b then dep b else dep b ++ [a]) else dep m)
            (fun m => if m = a then ind a + 1 else ind m) from by
          simp [processEdges, hab]]
        rw [ih]
        have hfc : rfilter tset ((a, b) :: E) = (a, b) :: rfilter tset E := by
          simp [rfilter, List.filter_cons, hab.1, hab.2]
        rw [hfc]
        have hdm : t ∈ (if m = b then (if a ∈ dep b then dep b else dep b ++ [a]) else dep m) ↔
            t ∈ dep m ∨ (t = a ∧ m = b) := by
          by_cases hm : m = b
          · subst hm
            by_cases ha : a ∈ dep m
            · simp only [if_pos rfl, if_pos ha]
              constructor
              · exact fun h => Or.inl h
              · rintro (h | ⟨h1, h2⟩)
                · exact h
                · exact h1 ▸ ha
            · simp [if_pos rfl, if_neg ha, List.mem_append]
          · simp [hm]
        rw [hdm]
        simp only [List.mem_cons, Prod.mk.injEq]
        tauto
      · rw [show processEdges tset ((a, b) :: E) dep ind = processEdges tset E dep ind from by
          simp [processEdges, hab]]
        rw [ih]
        have hfc : rfilter tset ((a, b) :: E) = rfilter tset E := by
          have : ¬ (a ∈ tset ∧ b ∈ tset) := hab
          simp only [rfilter, List.filter_cons]
          by_cases h1 : a ∈ tset <;> by_cases h2 : b ∈ tset <;> simp_all
        rw [hfc]

/-- The dependents lists built by `processEdges` stay duplicate-free. -/
theorem processEdges_dep_nodup (tset : List Node) :
    ∀ (E : List Edge) (dep : Node → List Node) (ind : Node → Int),
      (∀ m, (dep m).Nodup) → ∀ m, ((processEdges tset E dep ind).1 m).Nodup := by
  intro E
  induction E with
  | nil => intro dep ind h m; simpa [processEdges] using h m
  | cons e E ih =>
      intro dep ind h m
      obtain ⟨a, b⟩ := e
      by_cases hab : a ∈ tset ∧ b ∈ tset
      · rw [show processEdges tset ((a, b) :: E) dep ind = processEdges tset E
            (fun m => if m = b then (if a ∈ dep b then dep b else dep b ++ [a]) else dep m)
            (fun m => if m = a then ind a + 1 else ind m) from by
          simp [processEdges, hab]]
        refine ih _ _ ?_ m
        intro m2
        by_cases hm : m2 = b
        · subst hm
          by_cases ha : a ∈ dep m2
          · simp [ha, h m2]
          · simp only [if_pos rfl, if_neg ha]
            refine List.Nodup.append (h m2) (List.nodup_singleton a) ?_
            intro x hx hx2
            have hxa : x = a := by simpa using hx2
            exact ha (hxa ▸ hx)
        · simp [hm, h m2]
      · rw [show processEdges tset ((a, b) :: E) dep ind = processEdges tset E dep ind from by
          simp [processEdges, hab]]
        exact ih dep ind h m

/-- Closed form of `processEdges`: the indegree of every node counts the
retained edges whose dependent is that node, with multiplicity. -/
theorem processEdges_ind (tset : List Node) :
    ∀ (E : List Edge) (dep : Node → List Node) (ind : Node → Int) (m : Node),
      (processEdges tset E dep ind).2 m =
        ind m + ((rfilter tset E).countP (fun e => decide (e.1 = m)) : Int) := by
  intro E
  induction E with
  | nil => intro dep ind m; simp [processEdges, rfilter]
  | cons e E ih =>
      intro dep ind m
      obtain ⟨a, b⟩ := e
      by_cases hab : a ∈ tset ∧ b ∈ tset
      · rw [show processEdges tset ((a, b) :: E) dep ind = processEdges tset E
            (fun m => if m = b then (if a ∈ dep b then dep b else dep b ++ [a]) else dep m)
            (fun m => if m = a then ind a + 1 else ind m) from by
          simp [processEdges, hab]]
        rw [ih]
        have hfc : rfilter tset ((a, b) :: E) = (a, b) :: rfilter tset E := by
          simp [rfilter, List.filter_cons, hab.1, hab.2]
        rw [hfc, List.countP_cons]
        by_cases hm : m = a
        · subst hm
          simp only [if_pos rfl, decide_eq_true_eq]
          push_cast
          omega
        · have hma : ¬ a = m := fun h => hm h.symm
          simp only [if_neg hm, decide_eq_true_eq, hma, if_false]
          push_cast
          omega
      · rw [show processEdges tset ((a, b) :: E) dep ind = processEdges tset E dep ind from by
          simp [processEdges, hab]]
        rw [ih]
        have hfc : rfilter tset ((a, b) :: E) = rfilter tset E := by
          simp only [rfilter, List.filter_cons]
          by_cases h1 : a ∈ tset <;> by_cases h2 : b ∈ tset <;> simp_all
        rw [hfc]

theorem kahn_done (tset : List Node) (rE : List Edge) (ind : Node → Int) (out : List Node)
    (hpend : ∀ t, ind t = (unmet rE out t : Int))
    (hnotdone : ∀ t ∈ tset, t ∉ out → ind t ≠ 0) :
    ∀ t ∈ tset, t ∉ out → ∃ e ∈ rE, e.1 = t ∧ e.2 ∉ out := by
  intro t ht hto
  have h1 := hnotdone t ht hto
  rw [hpend t] at h1
  have h2 : unmet rE out t ≠ 0 := by exact_mod_cast h1
  exact unmet_pos rE out t h2

/-- Main invariant lemma for the Kahn while-loop: provided the retained
edge list has no duplicates, the loop extends `out` to a duplicate-free
list of task-set members that respects every retained edge, and any
task-set member left out still has an unmet prerequisite also left out. -/
theorem kahnLoop_spec (tset : List Node) (rE : List Edge) (dep : Node → List Node)
    (hdep_mem : ∀ m t, t ∈ dep m ↔ (t, m) ∈ rE)
    (hdep_nodup : ∀ m, (dep m).Nodup)
    (hE_tset : ∀ e ∈ rE, e.1 ∈ tset ∧ e.2 ∈ tset)
    (hrE : rE.Nodup) :
    ∀ (fuel : Nat) (ind : Node → Int) (q out : List Node),
      tset.length ≤ fuel + out.length →
      (out ++ q).Nodup →
      (∀ x ∈ out ++ q, x ∈ tset) →
      (∀ x ∈ out ++ q, ind x ≤ 0) →
      (∀ t, ind t = (unmet rE out t : Int)) →
      (∀ e ∈ rE, e.1 ∈ out → e.2 ∈ out ∧ out.indexOf e.2 < out.indexOf e.1) →
      (∀ t ∈ q, ∀ e ∈ rE, e.1 = t → e.2 ∈ out) →
      (∀ t ∈ tset, t ∉ out → t ∉ q → ind t ≠ 0) →
      ∃ ext, kahnLoop dep fuel ind q out = out ++ ext ∧
        (out ++ ext).Nodup ∧
        (∀ x ∈ out ++ ext, x ∈ tset) ∧
        (∀ e ∈ rE, e.1 ∈ out ++ ext →
          e.2 ∈ out ++ ext ∧ (out ++ ext).indexOf e.2 < (out ++ ext).indexOf e.1) ∧
        (∀ t ∈ tset, t ∉ out ++ ext → ∃ e ∈ rE, e.1 = t ∧ e.2 ∉ out ++ ext) := by
  intro fuel
  induction fuel with
  | zero =>
      intro ind q out hfuel hnd hsub hU2 hpend hprec hqr hnotdone
      cases q with
      | nil =>
          refine ⟨[], by simp [kahnLoop], ?_, ?_, ?_, ?_⟩ <;> simp only [List.append_nil] at *
          · exact hnd
          · exact hsub
          · exact hprec
          · exact kahn_done tset rE ind out hpend
              (fun t ht hto => hnotdone t ht hto (List.not_mem_nil t))
      | cons n q2 =>
          exfalso
          have hsp : (out ++ n :: q2).Subperm tset :=
            List.Nodup.subperm hnd (fun a ha => hsub a ha)
          have hlen := hsp.length_le
          simp only [List.length_append, List.length_cons] at hlen
          omega
  | succ f ih =>
      intro ind q out hfuel hnd hsub hU2 hpend hprec hqr hnotdone
      cases q with
      | nil =>
          refine ⟨[], by simp [kahnLoop], ?_, ?_, ?_, ?_⟩ <;> simp only [List.append_nil] at *
          · exact hnd
          · exact hsub
          · exact hprec
          · exact kahn_done tset rE ind out hpend
              (fun t ht hto => hnotdone t ht hto (List.not_mem_nil t))
      | cons n q2 =>
          have hnin : n ∉ out := by
            intro h
            rcases List.nodup_append.mp hnd with ⟨_, _, hdisj⟩
            exact hdisj h (List.mem_cons_self n q2)
          rcases relax_spec (dep n) ind q2 (hdep_nodup n) with ⟨hr1, hr2⟩
          set newEnq := (dep n).filter (fun d => decide (ind d - 1 = 0)) with hnewEnq
          set ind1 : Node → Int := fun m => if m ∈ dep n then ind m - 1 else ind m with hind1
          have hstep : kahnLoop dep (f + 1) ind (n :: q2) out =
              kahnLoop dep f ind1 (q2 ++ newEnq) (out ++ [n]) := by
            show kahnLoop dep f (relax ind q2 (dep n)).1 (relax ind q2 (dep n)).2 (out ++ [n]) =
              _
            rw [hr1, hr2]
          -- membership of the new queue elements
          have hnewEnq_mem : ∀ d ∈ newEnq, d ∈ dep n ∧ ind d = 1 := by
            intro d hd
            rcases List.mem_filter.mp hd with ⟨h1, h2⟩
            simp only [decide_eq_true_eq] at h2
            exact ⟨h1, by omega⟩
          have hnewEnq_fresh : ∀ d ∈ newEnq, d ∉ out ++ n :: q2 := by
            intro d hd hmem
            have := hU2 d hmem
            have := (hnewEnq_mem d hd).2
            omega
          -- re-established invariants
          have hfuel2 : tset.length ≤ f + (out ++ [n]).length := by
            simp only [List.length_append, List.length_singleton]
            omega
          have hshape : (out ++ [n]) ++ (q2 ++ newEnq) = (out ++ n :: q2) ++ newEnq := by
            simp [List.append_assoc]
          have hnd2 : ((out ++ [n]) ++ (q2 ++ newEnq)).Nodup := by
            rw [hshape]
            refine List.Nodup.append hnd (List.Nodup.filter _ (hdep_nodup n)) ?_
            intro d hd hd2
            exact hnewEnq_fresh d hd2 hd
          have hsub2 : ∀ x ∈ (out ++ [n]) ++ (q2 ++ newEnq), x ∈ tset := by
            rw [hshape]
            intro x hx
            rcases List.mem_append.mp hx with hx | hx
            · exact hsub x hx
            · have hdn := (hnewEnq_mem x hx).1
              have := (hdep_mem n x).mp hdn
              exact (hE_tset _ this).1
          have hU22 : ∀ x ∈ (out ++ [n]) ++ (q2 ++ newEnq), ind1 x ≤ 0 := by
            rw [hshape]
            intro x hx
            rcases List.mem_append.mp hx with hx | hx
            · have h1 := hU2 x hx
              by_cases h2 : x ∈ dep n <;> simp only [hind1, h2, if_true, if_false] <;> omega
            · rcases hnewEnq_mem x hx with ⟨h1, h2⟩
              simp only [hind1, h1, if_true]
              omega
          have hpend2 : ∀ t, ind1 t = (unmet rE (out ++ [n]) t : Int) := by
            intro t
            have hst := unmet_step rE hrE out n hnin t
            have hp := hpend t
            by_cases h2 : t ∈ dep n
            · have hmem : (t, n) ∈ rE := (hdep_mem n t).mp h2
              rw [if_pos hmem] at hst
              simp only [hind1, h2, if_true]
              omega
            · have hmem : (t, n) ∉ rE := fun h => h2 ((hdep_mem n t).mpr h)
              rw [if_neg hmem] at hst
              simp only [hind1, h2, if_false]
              omega
          have hprec2 : ∀ e ∈ rE, e.1 ∈ out ++ [n] →
              e.2 ∈ out ++ [n] ∧ (out ++ [n]).indexOf e.2 < (out ++ [n]).indexOf e.1 := by
            intro e he h1
            rcases List.mem_append.mp h1 with h1 | h1
            · rcases hprec e he h1 with ⟨h2, h3⟩
              refine ⟨List.mem_append.mpr (Or.inl h2), ?_⟩
              rw [List.indexOf_append_of_mem h2, List.indexOf_append_of_mem h1]
              exact h3
            · have hen : e.1 = n := by simpa using h1
              have h2 : e.2 ∈ out := hqr n (List.mem_cons_self n q2) e he hen
              refine ⟨List.mem_append.mpr (Or.inl h2), ?_⟩
              rw [List.indexOf_append_of_mem h2, hen, List.indexOf_append_of_not_mem hnin]
              have h3 : List.indexOf n [n] = 0 := List.indexOf_cons_self n []
              have h4 : List.indexOf e.2 out < out.length := List.indexOf_lt_length.mpr h2
              omega
          have hqr2 : ∀ t ∈ q2 ++ newEnq, ∀ e ∈ rE, e.1 = t → e.2 ∈ out ++ [n] := by
            intro t ht e he het
            rcases List.mem_append.mp ht with ht | ht
            · exact List.mem_append.mpr
                (Or.inl (hqr t (List.mem_cons_of_mem n ht) e he het))
            · rcases hnewEnq_mem t ht with ⟨h1, h2⟩
              have h3 : ind1 t = 0 := by
                simp only [hind1, h1, if_true]
                omega
              rw [hpend2 t] at h3
              have h4 : unmet rE (out ++ [n]) t = 0 := by exact_mod_cast h3
              exact (unmet_zero_iff rE (out ++ [n]) t).mp h4 e he het
          have hnotdone2 : ∀ t ∈ tset, t ∉ out ++ [n] → t ∉ q2 ++ newEnq → ind1 t ≠ 0 := by
            intro t ht h1 h2
            by_cases h3 : t ∈ dep n
            · simp only [hind1, h3, if_true]
              intro h4
              refine h2 (List.mem_append.mpr (Or.inr ?_))
              rw [hnewEnq]
              refine List.mem_filter.mpr ⟨h3, ?_⟩
              simpa using h4
            · simp only [hind1, h3, if_false]
              have h4 : t ∉ out := fun h => h1 (List.mem_append.mpr (Or.inl h))
              have h5 : t ≠ n := by
                intro h
                exact h1 (List.mem_append.mpr (Or.inr (by simp [h])))
              have h6 : t ∉ n :: q2 := by
                intro h
                rcases List.mem_cons.mp h with h | h
                · exact h5 h
                · exact h2 (List.mem_append.mpr (Or.inl h))
              exact hnotdone t ht h4 h6
          rcases ih ind1 (q2 ++ newEnq) (out ++ [n]) hfuel2 hnd2 hsub2 hU22 hpend2
            hprec2 hqr2 hnotdone2 with ⟨ext2, heq, hc1, hc2, hc3, hc4⟩
          refine ⟨n :: ext2, ?_, ?_, ?_, ?_, ?_⟩
          · rw [hstep, heq, List.append_assoc]
            rfl
          · rw [show out ++ n :: ext2 = (out ++ [n]) ++ ext2 from by
              simp [List.append_assoc]]
            exact hc1
          · rw [show out ++ n :: ext2 = (out ++ [n]) ++ ext2 from by
              simp [List.append_assoc]]
            exact hc2
          · rw [show out ++ n :: ext2 = (out ++ [n]) ++ ext2 from by
              simp [List.append_assoc]]
            exact hc3
          · rw [show out ++ n :: ext2 = (out ++ [n]) ++ ext2 from by
              simp [List.append_assoc]]
            exact hc4

/-- A nonempty node set in which every node has an outgoing edge back
into the set contains a directed cycle (pigeonhole on iterates). -/
theorem cycle_of_stuck (rE : List Edge) (S : List Node) (x₀ : Node) (hx₀ : x₀ ∈ S)
    (hstep : ∀ t ∈ S, ∃ u, u ∈ S ∧ (t, u) ∈ rE) :
    ∃ n, Relation.TransGen (edgeStep rE) n n := by
  classical
  set f : Node → Node := fun t => if h : ∃ u, u ∈ S ∧ (t, u) ∈ rE then h.choose else t with hf
  have hfprop : ∀ t ∈ S, f t ∈ S ∧ (t, f t) ∈ rE := by
    intro t ht
    have h := hstep t ht
    simp only [hf, dif_pos h]
    exact ⟨h.choose_spec.1, h.choose_spec.2⟩
  have hiter : ∀ i, f^[i] x₀ ∈ S := by
    intro i
    induction i with
    | zero => simpa using hx₀
    | succ n ihn =>
        rw [Function.iterate_succ_apply']
        exact (hfprop _ ihn).1
  have hchain : ∀ d i, Relation.TransGen (edgeStep rE) (f^[i] x₀) (f^[i + d + 1] x₀) := by
    intro d
    induction d with
    | zero =>
        intro i
        rw [show i + 0 + 1 = i + 1 from rfl, Function.iterate_succ_apply']
        exact Relation.TransGen.single ((hfprop _ (hiter i)).2)
    | succ d ihd =>
        intro i
        have h1 := ihd i
        have h2 : f^[i + d + 1 + 1] x₀ = f (f^[i + d + 1] x₀) :=
          Function.iterate_succ_apply' f _ _
        rw [show i + (d + 1) + 1 = i + d + 1 + 1 from by omega, h2]
        exact Relation.TransGen.tail h1 ((hfprop _ (hiter _)).2)
  have hmaps : ∀ i ∈ Finset.range (S.length + 1), f^[i] x₀ ∈ S.toFinset := by
    intro i _
    exact List.mem_toFinset.mpr (hiter i)
  have hcard : S.toFinset.card < (Finset.range (S.length + 1)).card := by
    rw [Finset.card_range]
    exact Nat.lt_succ_of_le (List.toFinset_card_le S)
  rcases Finset.exists_ne_map_eq_of_card_lt_of_maps_to hcard hmaps with
    ⟨i, _, j, _, hij, heq⟩
  rcases Nat.lt_or_ge i j with hlt | hge
  · refine ⟨f^[i] x₀, ?_⟩
    have h3 := hchain (j - i - 1) i
    rw [show i + (j - i - 1) + 1 = j from by omega] at h3
    rw [← heq] at h3
    exact h3
  · have hlt2 : j < i := by
      rcases Nat.lt_or_ge j i with h | h
      · exact h
      · exact absurd (Nat.le_antisymm h hge) hij
    refine ⟨f^[j] x₀, ?_⟩
    have h3 := hchain (i - j - 1) j
    rw [show j + (i - j - 1) + 1 = i from by omega] at h3
    rw [heq] at h3
    exact h3

theorem mem_redges (tasks : List Node) (edges : List Edge) (e : Edge) :
    e ∈ redges tasks edges ↔ e ∈ edges ∧ e.1 ∈ tasks.dedup ∧ e.2 ∈ tasks.dedup := by
  simp [redges, rfilter, List.mem_filter, and_assoc]

/-- One full run of `topo_sort` under the no-duplicate-retained-edges
hypothesis: the Kahn loop produces a duplicate-free list `r` of task-set
members respecting every retained edge, any left-out task keeps an
unmet, left-out prerequisite, and `topo_sort` answers by comparing the
lengths. -/
theorem topo_run (tasks : List Node) (edges : List Edge)
    (hrE : (redges tasks edges).Nodup) :
    ∃ r : List Node,
      topo_sort tasks edges = (if r.length = tasks.dedup.length then some r else none) ∧
      r.Nodup ∧ (∀ x ∈ r, x ∈ tasks.dedup) ∧
      (∀ e ∈ redges tasks edges, e.1 ∈ r → e.2 ∈ r ∧ r.indexOf e.2 < r.indexOf e.1) ∧
      (∀ t ∈ tasks.dedup, t ∉ r → ∃ e ∈ redges tasks edges, e.1 = t ∧ e.2 ∉ r) := by
  set tset := tasks.dedup with htset
  set dp := processEdges tset edges (fun _ => []) (fun _ => 0) with hdp
  set rE := redges tasks edges with hre
  have hreq : rE = rfilter tset edges := rfl
  have hdep_mem : ∀ m t, t ∈ dp.1 m ↔ (t, m) ∈ rE := by
    intro m t
    rw [hdp, processEdges_dep_mem]
    simp [hreq]
  have hdep_nodup : ∀ m, (dp.1 m).Nodup := by
    intro m
    rw [hdp]
    exact processEdges_dep_nodup tset edges _ _ (fun m => List.nodup_nil) m
  have hE_tset : ∀ e ∈ rE, e.1 ∈ tset ∧ e.2 ∈ tset := by
    intro e he
    rw [hreq] at he
    rcases List.mem_filter.mp he with ⟨_, h2⟩
    simpa using h2
  have hind0 : ∀ t, dp.2 t = (unmet rE [] t : Int) := by
    intro t
    have h1 : unmet rE [] t = (rfilter tset edges).countP (fun e => decide (e.1 = t)) := by
      unfold unmet
      rw [List.countP_eq_length_filter, List.countP_eq_length_filter, hreq]
      refine congrArg _ (List.filter_congr ?_)
      intro e he
      simp
    have h0 : dp.2 t = ((rfilter tset edges).countP (fun e => decide (e.1 = t)) : Int) := by
      rw [hdp, processEdges_ind]
      simp
    rw [h0, h1]
  have hnd0 : (([] : List Node) ++ tset.filter (fun t => dp.2 t = 0)).Nodup := by
    simp only [List.nil_append]
    exact List.Nodup.filter _ (List.nodup_dedup tasks)
  have hsub0 : ∀ x ∈ ([] : List Node) ++ tset.filter (fun t => dp.2 t = 0), x ∈ tset := by
    simp only [List.nil_append]
    intro x hx
    exact (List.mem_filter.mp hx).1
  have hU20 : ∀ x ∈ ([] : List Node) ++ tset.filter (fun t => dp.2 t = 0), dp.2 x ≤ 0 := by
    simp only [List.nil_append]
    intro x hx
    have := (List.mem_filter.mp hx).2
    simp only [decide_eq_true_eq] at this
    omega
  have hprec0 : ∀ e ∈ rE, e.1 ∈ ([] : List Node) →
      e.2 ∈ ([] : List Node) ∧ List.indexOf e.2 ([] : List Node) < List.indexOf e.1 [] := by
    intro e _ h
    cases h
  have hqr0 : ∀ t ∈ tset.filter (fun t => dp.2 t = 0), ∀ e ∈ rE, e.1 = t →
      e.2 ∈ ([] : List Node) := by
    intro t ht e he het
    have h1 := (List.mem_filter.mp ht).2
    simp only [decide_eq_true_eq] at h1
    rw [hind0 t] at h1
    have h2 : unmet rE [] t = 0 := by exact_mod_cast h1
    exact (unmet_zero_iff rE [] t).mp h2 e he het
  have hnotdone0 : ∀ t ∈ tset, t ∉ ([] : List Node) →
      t ∉ tset.filter (fun t => dp.2 t = 0) → dp.2 t ≠ 0 := by
    intro t ht _ h2 h3
    exact h2 (List.mem_filter.mpr ⟨ht, by simp [h3]⟩)
  have hfuel0 : tset.length ≤ tset.length + ([] : List Node).length := by simp
  rcases kahnLoop_spec tset rE dp.1 hdep_mem hdep_nodup hE_tset hrE tset.length dp.2
    (tset.filter (fun t => dp.2 t = 0)) [] hfuel0 hnd0 hsub0 hU20 hind0 hprec0 hqr0
    hnotdone0 with ⟨ext, heq, hc1, hc2, hc3, hc4⟩
  simp only [List.nil_append] at heq hc1 hc2 hc3 hc4
  refine ⟨ext, ?_, hc1, hc2, hc3, hc4⟩
  show (if (kahnLoop dp.1 tset.length dp.2 (tset.filter (fun t => dp.2 t = 0)) []).length =
      tset.length then some (kahnLoop dp.1 tset.length dp.2
        (tset.filter (fun t => dp.2 t = 0)) []) else none) =
    (if ext.length = tset.length then some ext else none)
  rw [heq]

/-- When the Kahn run leaves some task out, the retained edges contain a
cycle: every left-out task has a left-out prerequisite, and the
pigeonhole argument closes the loop. -/
theorem stuck_gives_cycle (tasks : List Node) (edges : List Edge) (r : List Node)
    (hr1 : r.Nodup) (hr2 : ∀ x ∈ r, x ∈ tasks.dedup)
    (hr4 : ∀ t ∈ tasks.dedup, t ∉ r → ∃ e ∈ redges tasks edges, e.1 = t ∧ e.2 ∉ r)
    (hlen : r.length ≠ tasks.dedup.length) :
    ∃ n, Relation.TransGen (depStep tasks edges) n n := by
  have hsp : r.Subperm tasks.dedup := List.Nodup.subperm hr1 (fun a ha => hr2 a ha)
  have hle := hsp.length_le
  have hmiss : ∃ t ∈ tasks.dedup, t ∉ r := by
    by_contra hmiss
    push_neg at hmiss
    have h1 : tasks.dedup.Subperm r := List.Nodup.subperm (List.nodup_dedup tasks) hmiss
    have := h1.length_le
    omega
  rcases hmiss with ⟨t0, ht0, ht0r⟩
  set S := tasks.dedup.filter (fun t => decide (t ∉ r)) with hS
  have ht0S : t0 ∈ S := List.mem_filter.mpr ⟨ht0, by simpa using ht0r⟩
  have hstepS : ∀ t ∈ S, ∃ u, u ∈ S ∧ (t, u) ∈ redges tasks edges := by
    intro t ht
    rcases List.mem_filter.mp ht with ⟨ht1, ht2⟩
    simp only [decide_eq_true_eq] at ht2
    rcases hr4 t ht1 ht2 with ⟨e, he, he1, he2⟩
    refine ⟨e.2, List.mem_filter.mpr ⟨?_, by simpa using he2⟩, ?_⟩
    · exact ((mem_redges tasks edges e).mp he).2.2
    · rw [← he1]
      simpa using he
  exact cycle_of_stuck (redges tasks edges) S t0 ht0S hstepS

/-- C2 (amended): when the edges retained inside the task set contain no
duplicates and their subgraph is acyclic, `topo_sort` returns a
duplicate-free sequence containing exactly the task-set members, in
which every prerequisite is placed strictly before each of its
dependents.  The no-duplicate side condition is forced by
`claim_C2_counterexample`. -/
theorem claim_C2_topo_sort_permutation (tasks : List Node) (edges : List Edge)
    (hnd : (redges tasks edges).Nodup)
    (hacyc : ¬ ∃ n, Relation.TransGen (depStep tasks edges) n n) :
    ∃ out, topo_sort tasks edges = some out ∧ out.Nodup ∧
      (∀ n, n ∈ out ↔ n ∈ tasks) ∧
      (∀ e ∈ edges, e.1 ∈ tasks → e.2 ∈ tasks → out.indexOf e.2 < out.indexOf e.1) := by
  rcases topo_run tasks edges hnd with ⟨r, htopo, hr1, hr2, hr3, hr4⟩
  have hlen : r.length = tasks.dedup.length := by
    by_contra hne
    exact hacyc (stuck_gives_cycle tasks edges r hr1 hr2 hr4 hne)
  rw [if_pos hlen] at htopo
  have hsp : r.Subperm tasks.dedup := List.Nodup.subperm hr1 (fun a ha => hr2 a ha)
  have hpm : r.Perm tasks.dedup := hsp.perm_of_length_le (by omega)
  have hperm : ∀ n, n ∈ r ↔ n ∈ tasks := by
    intro n
    rw [hpm.mem_iff, List.mem_dedup]
  refine ⟨r, htopo, hr1, hperm, ?_⟩
  intro e he h1 h2
  have hemem : e ∈ redges tasks edges := (mem_redges tasks edges e).mpr
    ⟨he, List.mem_dedup.mpr h1, List.mem_dedup.mpr h2⟩
  have he1r : e.1 ∈ r := (hperm e.1).mpr h1
  exact (hr3 e hemem he1r).2

/-- C4 (amended): when the retained edges contain no duplicates,
`topo_sort` raises (returns `none`) exactly when the subgraph inside the
task set has a directed cycle.  The no-duplicate side condition is
forced by `claim_C4_counterexample`. -/
theorem claim_C4_topo_sort_cycle_error (tasks : List Node) (edges : List Edge)
    (hnd : (redges tasks edges).Nodup) :
    topo_sort tasks edges = none ↔
      ∃ n, Relation.TransGen (depStep tasks edges) n n := by
  rcases topo_run tasks edges hnd with ⟨r, htopo, hr1, hr2, hr3, hr4⟩
  constructor
  · intro hnone
    have hlen : r.length ≠ tasks.dedup.length := by
      intro h
      rw [if_pos h] at htopo
      rw [htopo] at hnone
      cases hnone
    exact stuck_gives_cycle tasks edges r hr1 hr2 hr4 hlen
  · rintro ⟨n, hcyc⟩
    by_cases hlen : r.length = tasks.dedup.length
    · exfalso
      rw [if_pos hlen] at htopo
      have hsp : r.Subperm tasks.dedup := List.Nodup.subperm hr1 (fun a ha => hr2 a ha)
      have hpm : r.Perm tasks.dedup := hsp.perm_of_length_le (by omega)
      have horder : ∀ a b, Relation.TransGen (depStep tasks edges) a b →
          r.indexOf b < r.indexOf a := by
        intro a b h
        induction h with
        | single hs =>
            have hmem : (a, _) ∈ redges tasks edges := hs
            have ha : a ∈ r := by
              rw [hpm.mem_iff]
              exact ((mem_redges tasks edges _).mp hmem).2.1
            exact (hr3 _ hmem ha).2
        | tail h1 hs ih =>
            rename_i bmid c
            have hmem : (bmid, c) ∈ redges tasks edges := hs
            have hb : bmid ∈ r := by
              rw [hpm.mem_iff]
              exact ((mem_redges tasks edges _).mp hmem).2.1
            exact lt_trans (hr3 _ hmem hb).2 ih
      exact absurd (horder n n hcyc) (lt_irrefl _)
    · rw [if_neg hlen] at htopo
      exact htopo

theorem processEdges_filter_external (tasks : List Node) :
    ∀ (E : List Edge) (dep : Node → List Node) (ind : Node → Int),
      processEdges tasks.dedup E dep ind =
        processEdges tasks.dedup
          (E.filter (fun e => decide (e.1 ∈ tasks) && decide (e.2 ∈ tasks))) dep ind := by
  intro E
  induction E with
  | nil => intro dep ind; rfl
  | cons e E ih =>
      intro dep ind
      obtain ⟨a, b⟩ := e
      rw [List.filter_cons]
      by_cases hab : a ∈ tasks.dedup ∧ b ∈ tasks.dedup
      · have h1 : a ∈ tasks := List.mem_dedup.mp hab.1
        have h2 : b ∈ tasks := List.mem_dedup.mp hab.2
        rw [if_pos (by simp [h1, h2])]
        have hL : processEdges tasks.dedup ((a, b) :: E) dep ind =
            processEdges tasks.dedup E
              (fun m => if m = b then (if a ∈ dep b then dep b else dep b ++ [a]) else dep m)
              (fun m => if m = a then ind a + 1 else ind m) := by
          simp [processEdges, hab]
        have hR : processEdges tasks.dedup
              ((a, b) :: E.filter (fun e => decide (e.1 ∈ tasks) && decide (e.2 ∈ tasks)))
              dep ind =
            processEdges tasks.dedup
              (E.filter (fun e => decide (e.1 ∈ tasks) && decide (e.2 ∈ tasks)))
              (fun m => if m = b then (if a ∈ dep b then dep b else dep b ++ [a]) else dep m)
              (fun m => if m = a then ind a + 1 else ind m) := by
          simp [processEdges, hab]
        rw [hL, hR, ih]
      · have hab2 : ¬ (a ∈ tasks ∧ b ∈ tasks) := by
          intro h
          exact hab ⟨List.mem_dedup.mpr h.1, List.mem_dedup.mpr h.2⟩
        rw [if_neg (by simpa using hab2)]
        have hL : processEdges tasks.dedup ((a, b) :: E) dep ind =
            processEdges tasks.dedup E dep ind := by
          simp only [processEdges, if_neg hab]
        rw [hL, ih]

/-- C7: `topo_sort` gives the identical outcome when every edge with at
least one endpoint outside the task set is dropped from the edge list
beforehand — such edges are skipped by the processing loop. -/
theorem claim_C7_topo_sort_ignores_external (tasks : List Node) (edges : List Edge) :
    topo_sort tasks edges =
      topo_sort tasks
        (edges.filter (fun e => decide (e.1 ∈ tasks) && decide (e.2 ∈ tasks))) := by
  simp only [topo_sort]
  rw [processEdges_filter_external tasks edges]

/-- Executable cycle check on the retained edges, used to settle
concrete instances of acyclicity. -/
def hasCycleB (tasks : List Node) (edges : List Edge) : Bool :=
  (redges tasks edges).any
    (fun e => has_path (build_adjacency (redges tasks edges)) e.2 e.1)

theorem hasCycleB_iff (tasks : List Node) (edges : List Edge) :
    hasCycleB tasks edges = true ↔
      ∃ n, Relation.TransGen (depStep tasks edges) n n := by
  unfold hasCycleB
  rw [List.any_eq_true]
  constructor
  · rintro ⟨e, he, hp⟩
    rw [has_path_iff_reach, reach_build_iff] at hp
    refine ⟨e.1, Relation.TransGen.head' ?_ hp⟩
    show (e.1, e.2) ∈ redges tasks edges
    simpa using he
  · rintro ⟨n, hc⟩
    cases hc with
    | single hs =>
        refine ⟨(n, n), hs, ?_⟩
        rw [has_path_iff_reach, reach_build_iff]
    | tail h1 hs =>
        rename_i b
        refine ⟨(b, n), hs, ?_⟩
        rw [has_path_iff_reach, reach_build_iff]
        exact h1.to_reflTransGen

theorem no_cycle_of_hasCycleB_false (tasks : List Node) (edges : List Edge)
    (h : hasCycleB tasks edges = false) :
    ¬ ∃ n, Relation.TransGen (depStep tasks edges) n n := by
  intro hc
  rw [← hasCycleB_iff, h] at hc
  cases hc

/-- Counterexample to C2 as stated: the edge list repeats the edge
`(2, 1)`, the subgraph restricted to the task set is acyclic, yet
`topo_sort` raises instead of returning a permutation — the duplicate
occurrence bumps the indegree of node 2 twice while the dependents set
triggers only one decrement. -/
theorem claim_C2_counterexample :
    (¬ ∃ n, Relation.TransGen (depStep [1, 2, 3] [(2, 1), (2, 1), (3, 2)]) n n) ∧
      topo_sort [1, 2, 3] [(2, 1), (2, 1), (3, 2)] = none :=
  ⟨no_cycle_of_hasCycleB_false _ _ (by decide), by decide⟩

/-- Witness for the amended C2 at the concrete instance of the test
suite. -/
theorem claim_C2_witness :
    (redges [1, 2, 3] [(2, 1), (3, 2)]).Nodup ∧
      (¬ ∃ n, Relation.TransGen (depStep [1, 2, 3] [(2, 1), (3, 2)]) n n) ∧
      ∃ out, topo_sort [1, 2, 3] [(2, 1), (3, 2)] = some out ∧ out.Nodup ∧
        (∀ n, n ∈ out ↔ n ∈ [1, 2, 3]) ∧
        (∀ e ∈ [((2 : Int), (1 : Int)), (3, 2)], e.1 ∈ [(1 : Int), 2, 3] →
          e.2 ∈ [(1 : Int), 2, 3] → out.indexOf e.2 < out.indexOf e.1) :=
  ⟨by decide, no_cycle_of_hasCycleB_false _ _ (by decide),
    claim_C2_topo_sort_permutation [1, 2, 3] [(2, 1), (3, 2)] (by decide)
      (no_cycle_of_hasCycleB_false _ _ (by decide))⟩

/-- Counterexample to C4 as stated: with the duplicated edge `(2, 1)`
the restricted subgraph has no directed cycle, yet `topo_sort` raises. -/
theorem claim_C4_counterexample :
    topo_sort [1, 2] [(2, 1), (2, 1)] = none ∧
      ¬ ∃ n, Relation.TransGen (depStep [1, 2] [(2, 1), (2, 1)]) n n :=
  ⟨by decide, no_cycle_of_hasCycleB_false _ _ (by decide)⟩

/-- Witness for the amended C4 at a concrete three-cycle. -/
theorem claim_C4_witness :
    (redges [1, 2, 3] [(2, 1), (3, 2), (1, 3)]).Nodup ∧
      (topo_sort [1, 2, 3] [(2, 1), (3, 2), (1, 3)] = none ↔
        ∃ n, Relation.TransGen (depStep [1, 2, 3] [(2, 1), (3, 2), (1, 3)]) n n) :=
  ⟨by decide, claim_C4_topo_sort_cycle_error [1, 2, 3] [(2, 1), (3, 2), (1, 3)] (by decide)⟩

/-! Model of flowtask/db.py.  SQLite rows are modelled as records whose
fields hold the stored column values: TEXT as String, nullable TEXT as
Option String, INTEGER as Int.  A store snapshot is the contents of the
two tables, in table order. -/

/-- A row of the `tasks` table as stored. -/
structure Row where
  id : Int
  title : String
  description : String
  priority : Int
  due : Option String
  status : String
  tags : String
  created_at : String
  updated_at : String
deriving DecidableEq

/-- A snapshot of the database: the `tasks` and `deps` tables. -/
structure Store where
  tasks : List Row
  deps : List (Int × Int)
deriving DecidableEq

/-- Model of a Python `datetime` restricted to the fragment db.py
exercises: `datetime.fromisoformat` splits a trailing `+00:00` UTC
offset from the body, which is kept verbatim, and `datetime.isoformat`
re-attaches it.  Canonical ISO bodies round-trip verbatim through the
real library, which is exactly what this captures. -/
structure PyDatetime where
  body : List Char
  utc : Bool
deriving DecidableEq

/-- Characters of the UTC offset suffix `+00:00`. -/
def utcSuffix : List Char := ['+', '0', '0', ':', '0', '0']

/-- Model of `str.replace("Z", "+00:00")`: every occurrence of the
one-character pattern is replaced. -/
def replaceZChars : List Char → List Char
  | [] => []
  | c :: cs => (if c = 'Z' then utcSuffix else [c]) ++ replaceZChars cs

def replaceZ (s : String) : String := ⟨replaceZChars s.data⟩

/-- Model of `datetime.fromisoformat` on canonical text. -/
def fromisoformat (s : String) : PyDatetime :=
  if s.data.drop (s.data.length - 6) = utcSuffix ∧ 6 ≤ s.data.length then
    ⟨s.data.take (s.data.length - 6), true⟩
  else ⟨s.data, false⟩

/-- Model of `datetime.isoformat`. -/
def pyIsoformat (dt : PyDatetime) : String :=
  ⟨dt.body ++ (if dt.utc then utcSuffix else [])⟩

/-- Model of models.py `Task` as materialised by db.py `_row_to_task`;
the `due` date object is represented by its canonical `YYYY-MM-DD` text
(`date.fromisoformat` and `date.isoformat` round-trip it verbatim). -/
structure Task where
  id : Int
  title : String
  description : String
  priority : Int
  due : Option String
  status : String
  tags : String
  created_at : PyDatetime
  updated_at : PyDatetime
deriving DecidableEq

/-- db.py `_parse_due`: `date.fromisoformat` on the stored text, with
the date object modelled by its canonical text. -/
def _parse_due (due_text : Option String) : Option String := due_text

/-- db.py `_row_to_task`. -/
def _row_to_task (r : Row) : Task :=
  { id := r.id, title := r.title, description := r.description, priority := r.priority,
    due := _parse_due r.due, status := r.status, tags := r.tags,
    created_at := fromisoformat (replaceZ r.created_at),
    updated_at := fromisoformat (replaceZ r.updated_at) }

/-- db.py `list_tasks` without a status filter: `ORDER BY id ASC`. -/
def list_tasks (st : Store) : List Task :=
  (st.tasks.insertionSort (fun a b => a.id ≤ b.id)).map _row_to_task

/-- db.py `get_dependencies`. -/
def get_dependencies (st : Store) : List (Int × Int) := st.deps

/-- The SQL WHERE clause of db.py `ready_tasks`: status is `todo` and
there exists no dependency edge of this task joined to an existing
prerequisite row whose status differs from `done`. -/
def readyFilter (st : Store) (t : Row) : Bool :=
  t.status = "todo" &&
    !(st.deps.any (fun d =>
      st.tasks.any (fun p => p.id = d.2 && d.1 = t.id && p.status ≠ "done")))

/-- Sort key of the `ready_tasks` ORDER BY: `CASE WHEN due IS NULL THEN
1 ELSE 0` first, then the due text ascending (SQLite compares TEXT
lexicographically, chronological on canonical dates), then priority
descending, then id ascending. -/
def readyKey (r : Row) : Lex (Nat × Lex (String × Lex (Int × Int))) :=
  toLex ((if r.due.isSome then 0 else 1),
    toLex (r.due.getD "", toLex (-r.priority, r.id)))

def readyLE (a b : Row) : Prop := readyKey a ≤ readyKey b

instance : DecidableRel readyLE :=
  fun a b => inferInstanceAs (Decidable (readyKey a ≤ readyKey b))

instance : IsTotal Row readyLE := ⟨fun a b => le_total (readyKey a) (readyKey b)⟩

instance : IsTrans Row readyLE := ⟨fun _ _ _ h1 h2 => le_trans h1 h2⟩

/-- db.py `ready_tasks`: the WHERE filter followed by the ORDER BY sort,
each surviving row materialised by `_row_to_task`. -/
def ready_tasks (st : Store) : List Task :=
  ((st.tasks.filter (readyFilter st)).insertionSort readyLE).map _row_to_task

/-- The sort key on materialised tasks; `_row_to_task` preserves it. -/
def taskKey (t : Task) : Lex (Nat × Lex (String × Lex (Int × Int))) :=
  toLex ((if t.due.isSome then 0 else 1),
    toLex (t.due.getD "", toLex (-t.priority, t.id)))

def taskLE (a b : Task) : Prop := taskKey a ≤ taskKey b

/-- A task object of the interchange document (`export_json` output and
`import_json` input); a well-formed document carries every Task field. -/
structure TaskDict where
  id : Int
  title : String
  description : String
  priority : Int
  due : Option String
  status : String
  tags : String
  created_at : String
  updated_at : String
deriving DecidableEq

/-- The interchange document. -/
structure Doc where
  tasks : List TaskDict
  deps : List (Int × Int)
deriving DecidableEq

/-- The `task_to_dict` helper of db.py `export_json`: `due` through
`date.isoformat` (verbatim on the canonical-text model), timestamps
through `datetime.isoformat`. -/
def task_to_dict (t : Task) : TaskDict :=
  { id := t.id, title := t.title, description := t.description, priority := t.priority,
    due := t.due, status := t.status, tags := t.tags,
    created_at := pyIsoformat t.created_at,
    updated_at := pyIsoformat t.updated_at }

/-- db.py `export_json`. -/
def export_json (st : Store) : Doc :=
  { tasks := (list_tasks st).map task_to_dict, deps := get_dependencies st }

/-- The row inserted by db.py `import_json` for one document task: the
original id and all fields are taken from the document. -/
def dictToRow (t : TaskDict) : Row :=
  { id := t.id, title := t.title, description := t.description, priority := t.priority,
    due := t.due, status := t.status, tags := t.tags,
    created_at := t.created_at, updated_at := t.updated_at }

/-- db.py `import_json`: delete both tables, insert the document's
tasks with their ids preserved, then insert the document's dependency
pairs. -/
def import_json (st : Store) (d : Doc) : Store :=
  let st1 : Store := { st with deps := [] }
  let st2 : Store := { st1 with tasks := [] }
  let st3 : Store :=
    d.tasks.foldl (fun s t => { s with tasks := s.tasks ++ [dictToRow t] }) st2
  d.deps.foldl (fun s e => { s with deps := s.deps ++ [e] }) st3

theorem row_task_key (r : Row) : taskKey (_row_to_task r) = readyKey r := rfl

/-- C3: `ready_tasks` returns exactly the materialisations of the todo
rows all of whose prerequisites are done — a task with no prerequisite
edge is included, one with a non-done prerequisite is excluded, a done
task is excluded — and the output sequence is sorted by: due date
present first, earlier due date first, higher priority first, lower id
first. -/
theorem claim_C3_ready_tasks (st : Store)
    (hids : (st.tasks.map (fun r => r.id)).Nodup)
    (hdeps : ∀ d ∈ st.deps,
      (∃ p ∈ st.tasks, p.id = d.1) ∧ (∃ p ∈ st.tasks, p.id = d.2)) :
    List.Sorted taskLE (ready_tasks st) ∧
    (∀ tk, tk ∈ ready_tasks st ↔ ∃ r ∈ st.tasks, tk = _row_to_task r ∧
      r.status = "todo" ∧
      (∀ d ∈ st.deps, d.1 = r.id → ∀ p ∈ st.tasks, p.id = d.2 → p.status = "done")) := by
  constructor
  · unfold ready_tasks
    refine List.Pairwise.map _ ?_ (List.sorted_insertionSort readyLE _)
    intro a b h
    show taskKey (_row_to_task a) ≤ taskKey (_row_to_task b)
    rw [row_task_key, row_task_key]
    exact h
  · intro tk
    unfold ready_tasks
    rw [List.mem_map]
    constructor
    · rintro ⟨r, hr, hr2⟩
      rw [List.mem_insertionSort] at hr
      rcases List.mem_filter.mp hr with ⟨hr3, hr4⟩
      unfold readyFilter at hr4
      rw [Bool.and_eq_true] at hr4
      rcases hr4 with ⟨h1, h2⟩
      refine ⟨r, hr3, hr2.symm, by simpa using h1, ?_⟩
      intro d hd hd1 p hp hpid
      by_contra hps
      have h3 : st.deps.any (fun d =>
          st.tasks.any (fun p => p.id = d.2 && d.1 = r.id && p.status ≠ "done")) = false := by
        simpa using h2
      rw [List.any_eq_false] at h3
      refine h3 d hd (List.any_eq_true.mpr ⟨p, hp, ?_⟩)
      simp [hpid, hd1, hps]
    · rintro ⟨r, hr, htk, hst, hprereq⟩
      refine ⟨r, ?_, htk.symm⟩
      rw [List.mem_insertionSort]
      refine List.mem_filter.mpr ⟨hr, ?_⟩
      unfold readyFilter
      rw [Bool.and_eq_true]
      refine ⟨by simp [hst], ?_⟩
      rw [Bool.not_eq_true', List.any_eq_false]
      intro d hd hcon
      rw [List.any_eq_true] at hcon
      rcases hcon with ⟨p, hp, hcond⟩
      rw [Bool.and_eq_true, Bool.and_eq_true] at hcond
      rcases hcond with ⟨⟨hc1, hc2⟩, hc3⟩
      simp only [decide_eq_true_eq] at hc1 hc2 hc3
      exact hc3 (hprereq d hd hc2 p hp hc1)

/-- Concrete row for witnesses, mirroring tests/test_db.py. -/
def wRow1 : Row :=
  { id := 1, title := "A", description := "", priority := 1, due := none,
    status := "todo", tags := "", created_at := "2024-01-01T00:00:00Z",
    updated_at := "2024-01-01T00:00:00Z" }

def wRow2 : Row := { wRow1 with id := 2, title := "B" }

def wStore : Store := { tasks := [wRow1, wRow2], deps := [(2, 1)] }

/-- Witness for C3 at the two-task scenario of the test suite. -/
theorem claim_C3_witness :
    ((wStore.tasks.map (fun r => r.id)).Nodup ∧
      (∀ d ∈ wStore.deps,
        (∃ p ∈ wStore.tasks, p.id = d.1) ∧ (∃ p ∈ wStore.tasks, p.id = d.2))) ∧
    (List.Sorted taskLE (ready_tasks wStore) ∧
      (∀ tk, tk ∈ ready_tasks wStore ↔ ∃ r ∈ wStore.tasks, tk = _row_to_task r ∧
        r.status = "todo" ∧
        (∀ d ∈ wStore.deps, d.1 = r.id →
          ∀ p ∈ wStore.tasks, p.id = d.2 → p.status = "done"))) :=
  ⟨⟨by decide, by decide⟩, claim_C3_ready_tasks wStore (by decide) (by decide)⟩

theorem import_fold_tasks (ts : List TaskDict) :
    ∀ s : Store,
      ts.foldl (fun s t => { s with tasks := s.tasks ++ [dictToRow t] }) s =
        { s with tasks := s.tasks ++ ts.map dictToRow } := by
  induction ts with
  | nil => intro s; simp
  | cons t ts ih =>
      intro s
      rw [List.foldl_cons, ih]
      simp [List.append_assoc]

theorem import_fold_deps (es : List (Int × Int)) :
    ∀ s : Store,
      es.foldl (fun s e => { s with deps := s.deps ++ [e] }) s =
        { s with deps := s.deps ++ es } := by
  induction es with
  | nil => intro s; simp
  | cons e es ih =>
      intro s
      rw [List.foldl_cons, ih]
      simp [List.append_assoc]

/-- C8: `import_json` fully replaces the store with the document's
contents: the resulting tasks are exactly the document's task objects
with their original ids preserved, the edges exactly the document's
deps pairs, and nothing from the prior state survives — the result does
not depend on the prior state at all (clear-then-insert). -/
theorem claim_C8_import_json (st st2 : Store) (d : Doc)
    (hids : (d.tasks.map (fun t => t.id)).Nodup)
    (hdeps : ∀ e ∈ d.deps,
      (∃ t ∈ d.tasks, t.id = e.1) ∧ (∃ t ∈ d.tasks, t.id = e.2)) :
    (import_json st d).tasks = d.tasks.map dictToRow ∧
    (import_json st d).tasks.map (fun r => r.id) = d.tasks.map (fun t => t.id) ∧
    (import_json st d).deps = d.deps ∧
    import_json st d = import_json st2 d := by
  have h : ∀ s : Store,
      import_json s d = { tasks := d.tasks.map dictToRow, deps := d.deps } := by
    intro s
    show d.deps.foldl (fun (s : Store) (e : Int × Int) => { s with deps := s.deps ++ [e] })
        (d.tasks.foldl (fun (s : Store) (t : TaskDict) =>
          { s with tasks := s.tasks ++ [dictToRow t] })
          ({ tasks := [], deps := [] } : Store)) = _
    rw [import_fold_tasks, import_fold_deps]
    simp
  rw [h st, h st2]
  refine ⟨rfl, ?_, rfl, rfl⟩
  rw [List.map_map]
  rfl

/-- Concrete interchange document and prior store for the C8 witness. -/
def wDict1 : TaskDict :=
  { id := 1, title := "A", description := "", priority := 0, due := none,
    status := "done", tags := "", created_at := "2024-01-01T00:00:00Z",
    updated_at := "2024-01-01T00:00:00Z" }

def wDict2 : TaskDict := { wDict1 with id := 2, title := "B", due := some "2024-02-03" }

def wDoc : Doc := { tasks := [wDict1, wDict2], deps := [(2, 1)] }

def wOldRow : Row :=
  { id := 9, title := "old", description := "", priority := 5, due := none,
    status := "todo", tags := "", created_at := "2023-01-01T00:00:00Z",
    updated_at := "2023-01-01T00:00:00Z" }

def wPrior : Store := { tasks := [wOldRow], deps := [(9, 9)] }

/-- Witness for C8 at a concrete document and a nonempty prior store. -/
theorem claim_C8_witness :
    ((wDoc.tasks.map (fun t => t.id)).Nodup ∧
      (∀ e ∈ wDoc.deps,
        (∃ t ∈ wDoc.tasks, t.id = e.1) ∧ (∃ t ∈ wDoc.tasks, t.id = e.2))) ∧
    ((import_json wPrior wDoc).tasks = wDoc.tasks.map dictToRow ∧
      (import_json wPrior wDoc).tasks.map (fun r => r.id) =
        wDoc.tasks.map (fun t => t.id) ∧
      (import_json wPrior wDoc).deps = wDoc.deps ∧
      import_json wPrior wDoc = import_json { tasks := [], deps := [] } wDoc) :=
  ⟨⟨by decide, by decide⟩,
    claim_C8_import_json wPrior { tasks := [], deps := [] } wDoc (by decide) (by decide)⟩

/-- Check that a string is `YYYY-MM-DD` text: ten characters, digits
with dashes at positions 4 and 7. -/
def validDate (s : String) : Bool :=
  match s.data with
  | [a, b, c, d, e, f, g, h, i, j] =>
      a.isDigit && b.isDigit && c.isDigit && d.isDigit && e == '-' &&
        f.isDigit && g.isDigit && h == '-' && i.isDigit && j.isDigit
  | _ => false

theorem replaceZChars_append (l₁ l₂ : List Char) :
    replaceZChars (l₁ ++ l₂) = replaceZChars l₁ ++ replaceZChars l₂ := by
  induction l₁ with
  | nil => rfl
  | cons c cs ih => simp [replaceZChars, ih]

theorem replaceZChars_noZ (l : List Char) (h : 'Z' ∉ l) : replaceZChars l = l := by
  induction l with
  | nil => rfl
  | cons c cs ih =>
      have hc : ¬ c = 'Z' := fun h2 => h (h2 ▸ List.mem_cons_self c cs)
      have hcs : 'Z' ∉ cs := fun h2 => h (List.mem_cons_of_mem c h2)
      simp [replaceZChars, hc, ih hcs]

/-- Round trip of one stored timestamp through `_row_to_task` and
`task_to_dict`: a canonical `...Z` text comes out as `...+00:00`. -/
theorem timestamp_roundtrip (raw : String) (b : List Char)
    (hb : raw.data = b ++ ['Z']) (hz : 'Z' ∉ b) :
    (pyIsoformat (fromisoformat (replaceZ raw))).data = b ++ utcSuffix := by
  have h1 : (replaceZ raw).data = b ++ utcSuffix := by
    show replaceZChars raw.data = _
    rw [hb, replaceZChars_append, replaceZChars_noZ b hz]
    rfl
  have h2 : fromisoformat (replaceZ raw) = ⟨b, true⟩ := by
    unfold fromisoformat
    rw [h1]
    have hlen : (b ++ utcSuffix).length - 6 = b.length := by
      simp [utcSuffix]
    rw [hlen, List.drop_left, List.take_left]
    rw [if_pos ⟨rfl, by simp [utcSuffix]⟩]
  rw [h2]
  simp [pyIsoformat]

/-- C9 (amended): for a store whose stored timestamps are canonical
ISO-8601 text with a trailing `Z` (as `_iso_now` writes them) and whose
due dates are canonical `YYYY-MM-DD` text, every task object exported
by `export_json` carries its timestamps as ISO-8601 text ending in the
explicit UTC offset `+00:00` — not in `Z`, since `isoformat` renders the
parsed offset that way — its due date (when present) as the stored
`YYYY-MM-DD` text, and the document's deps entry is exactly the list of
`(task_id, prereq_id)` pairs of the store.  The trailing-`Z` wording of
the claim is refuted by `claim_C9_counterexample`. -/
theorem claim_C9_export_format (st : Store)
    (hts : ∀ r ∈ st.tasks,
      (∃ b, r.created_at.data = b ++ ['Z'] ∧ 'Z' ∉ b) ∧
      (∃ b, r.updated_at.data = b ++ ['Z'] ∧ 'Z' ∉ b))
    (hdue : ∀ r ∈ st.tasks, ∀ s, r.due = some s → validDate s = true) :
    (∀ td ∈ (export_json st).tasks,
      (∃ b, td.created_at.data = b ++ utcSuffix ∧ 'Z' ∉ b) ∧
      td.created_at.data.getLast? ≠ some 'Z' ∧
      (∃ b, td.updated_at.data = b ++ utcSuffix ∧ 'Z' ∉ b) ∧
      td.updated_at.data.getLast? ≠ some 'Z' ∧
      (td.due = none ∨ ∃ s, td.due = some s ∧ validDate s = true)) ∧
    (export_json st).deps = st.deps := by
  refine ⟨?_, rfl⟩
  intro td htd
  unfold export_json list_tasks at htd
  rw [List.map_map, List.mem_map] at htd
  rcases htd with ⟨r, hr, hrt⟩
  rw [List.mem_insertionSort] at hr
  rcases hts r hr with ⟨⟨bc, hbc, hbcz⟩, ⟨bu, hbu, hbuz⟩⟩
  have hsuffix : utcSuffix.getLast? = some '0' := by decide
  have hc : td.created_at.data = bc ++ utcSuffix := by
    rw [← hrt]
    exact timestamp_roundtrip r.created_at bc hbc hbcz
  have hu : td.updated_at.data = bu ++ utcSuffix := by
    rw [← hrt]
    exact timestamp_roundtrip r.updated_at bu hbu hbuz
  refine ⟨⟨bc, hc, hbcz⟩, ?_, ⟨bu, hu, hbuz⟩, ?_, ?_⟩
  · rw [hc, List.getLast?_append, hsuffix]
    show (some '0' : Option Char) ≠ some 'Z'
    decide
  · rw [hu, List.getLast?_append, hsuffix]
    show (some '0' : Option Char) ≠ some 'Z'
    decide
  · have hdue2 : td.due = r.due := by
      rw [← hrt]
      rfl
    rw [hdue2]
    cases hd : r.due with
    | none => exact Or.inl rfl
    | some s => exact Or.inr ⟨s, rfl, hdue r hr s hd⟩

/-- Concrete store whose single task was stamped by `_iso_now`. -/
def zRow : Row :=
  { id := 1, title := "A", description := "", priority := 0, due := some "2024-01-03",
    status := "todo", tags := "", created_at := "2024-01-02T03:04:05Z",
    updated_at := "2024-01-02T03:04:05Z" }

def zStore : Store := { tasks := [zRow], deps := [] }

/-- Counterexample to C9 as stated: the exported `created_at` of a task
stored with the canonical `...Z` timestamp is `...+00:00` — ISO-8601
with an explicit offset, not ending with a trailing `Z` — because
`_row_to_task` parses `Z` as `+00:00` and `isoformat` renders the offset
that way. -/
theorem claim_C9_counterexample :
    (export_json zStore).tasks.map (fun td => td.created_at) =
      ["2024-01-02T03:04:05+00:00"] ∧
    ∀ td ∈ (export_json zStore).tasks, td.created_at.data.getLast? ≠ some 'Z' := by
  constructor
  · decide
  · decide

/-- Witness for the amended C9 at the concrete store `zStore`. -/
theorem claim_C9_witness :
    ((∀ r ∈ zStore.tasks,
        (∃ b, r.created_at.data = b ++ ['Z'] ∧ 'Z' ∉ b) ∧
        (∃ b, r.updated_at.data = b ++ ['Z'] ∧ 'Z' ∉ b)) ∧
      (∀ r ∈ zStore.tasks, ∀ s, r.due = some s → validDate s = true)) ∧
    ((∀ td ∈ (export_json zStore).tasks,
        (∃ b, td.created_at.data = b ++ utcSuffix ∧ 'Z' ∉ b) ∧
        td.created_at.data.getLast? ≠ some 'Z' ∧
        (∃ b, td.updated_at.data = b ++ utcSuffix ∧ 'Z' ∉ b) ∧
        td.updated_at.data.getLast? ≠ some 'Z' ∧
        (td.due = none ∨ ∃ s, td.due = some s ∧ validDate s = true)) ∧
      (export_json zStore).deps = zStore.deps) := by
  have h1 : ∀ r ∈ zStore.tasks,
      (∃ b, r.created_at.data = b ++ ['Z'] ∧ 'Z' ∉ b) ∧
      (∃ b, r.updated_at.data = b ++ ['Z'] ∧ 'Z' ∉ b) := by
    intro r hr
    have hrz : r = zRow := by
      rcases List.mem_singleton.mp hr with h
      exact h
    subst hrz
    exact ⟨⟨"2024-01-02T03:04:05".data, by decide, by decide⟩,
      ⟨"2024-01-02T03:04:05".data, by decide, by decide⟩⟩
  have h2 : ∀ r ∈ zStore.tasks, ∀ s, r.due = some s → validDate s = true := by
    decide
  exact ⟨⟨h1, h2⟩, claim_C9_export_format zStore h1 h2⟩

-- Sanity checks mirroring tests/test_graph.py.
example : would_create_cycle [] 1 1 = true := by decide
example : would_create_cycle [(2, 1), (3, 2)] 1 3 = true := by decide
example : would_create_cycle [(2, 1), (3, 2)] 4 3 = false := by decide
example : topo_sort [1, 2, 3] [(2, 1), (3, 2)] = some [1, 2, 3] := by decide
example : topo_sort [1, 2] [(2, 1), (2, 1)] = none := by decide
example : topo_sort [1, 2, 3] [(2, 1), (2, 1), (3, 2)] = none := by decide

end Flowtask
